import Mathlib

/-!
Verification of the minesweeper core (saolei): shallow embedding of
src/utils/boardGenerator.ts, src/utils/gameLogic.ts, src/utils/chordLogic.ts
and the useGameState composable, together with theorems settling the
specification claims.

Boards are lists of rows of cells; JavaScript numbers used as indices are
embedded as Int (so negative out-of-bounds indices are representable), and
cell indices known to be in bounds as Nat.  An access the JavaScript code
performs without a bounds check (which throws a TypeError on undefined) is
embedded as an Option, with none standing for the thrown exception.
-/

namespace Saolei

/-- The Cell record of types/game.ts, with exactly the fields the source
constructs in generateBoard / createBoard. -/
structure Cell where
  row : Nat
  col : Nat
  isMine : Bool
  isRevealed : Bool
  isFlagged : Bool
  neighborMines : Nat
  deriving Repr, DecidableEq

def defaultCell : Cell :=
  { row := 0, col := 0, isMine := false, isRevealed := false,
    isFlagged := false, neighborMines := 0 }

abbrev Board := List (List Cell)

/-- board.length -/
def rowsOf (b : Board) : Nat := b.length

/-- board[0].length (the source reads row 0; 0 for the empty board). -/
def colsOf (b : Board) : Nat := (b.getD 0 []).length

/-- Total reading of board[r][c] at Nat indices (default cell when absent). -/
def getCellD (b : Board) (r c : Nat) : Cell := (b.getD r []).getD c defaultCell

/-- The bounds test every checked operation performs:
0 <= r < board.length and 0 <= c < board[0].length. -/
abbrev InBounds (b : Board) (r c : Int) : Prop :=
  0 ≤ r ∧ r < (rowsOf b : Int) ∧ 0 ≤ c ∧ c < (colsOf b : Int)

/-- board[r][c] at possibly negative indices: some cell when the bounds
test passes and the cell exists, none otherwise. -/
def getCell? (b : Board) (r c : Int) : Option Cell :=
  if InBounds b r c then (b.getD r.toNat [])[c.toNat]? else none

/-- In-place update of one cell (board[r][c] = f board[r][c]); no-op when
the indices fall outside the actual lists. -/
def modifyCell (b : Board) (r c : Nat) (f : Cell → Cell) : Board :=
  b.set r ((b.getD r []).set c (f (getCellD b r c)))

def setMine (b : Board) (r c : Nat) : Board :=
  modifyCell b r c (fun x => { x with isMine := true })

def clearMine (b : Board) (r c : Nat) : Board :=
  modifyCell b r c (fun x => { x with isMine := false })

def setRevealed (b : Board) (r c : Nat) : Board :=
  modifyCell b r c (fun x => { x with isRevealed := true })

def toggleFlag (b : Board) (r c : Nat) : Board :=
  modifyCell b r c (fun x => { x with isFlagged := !x.isFlagged })

/-- Number of cells of the board satisfying p. -/
def countB (p : Cell → Bool) (b : Board) : Nat :=
  (b.map (fun row => row.countP p)).sum

/-- The empty board built by createBoard in useGameState (the same loop
initializes the board inside generateBoard). -/
def createBoard (rows cols : Nat) : Board :=
  (List.range rows).map (fun r => (List.range cols).map (fun c =>
    { row := r, col := c, isMine := false, isRevealed := false,
      isFlagged := false, neighborMines := 0 }))

/-! ### Seeded random number generator (Mulberry32), boardGenerator.ts -/

def UINT32 : Nat := 2 ^ 32

/-- state = (state * 31 + seed.charCodeAt(i)) >>> 0, folded over the seed
string (embedded as its list of character codes). -/
def seedState (seed : List Nat) : Nat :=
  seed.foldl (fun st ch => (st * 31 + ch) % UINT32) 0

/-- Math.imul: 32-bit product (as an unsigned bit pattern). -/
def imul (a b : Nat) : Nat := (a * b) % UINT32

/-- One step of the generator closure.  The JavaScript state variable is
only ever incremented (state += 0x6D2B79F5, exact while below 2^53) and
every read of it coerces it to 32 bits, so the state is kept as an exact
natural number and reduced mod 2^32 at each bitwise use.  Returns the new
state and the 32-bit output k; the emitted float is k / 2^32. -/
def mulberry32 (state : Nat) : Nat × Nat :=
  let s := state + 0x6D2B79F5
  let su := s % UINT32
  let t1 := imul (Nat.xor su (su >>> 15)) (su ||| 1)
  let t2 := Nat.xor t1 ((t1 + imul (Nat.xor t1 (t1 >>> 7)) (t1 ||| 61)) % UINT32)
  (s, Nat.xor t2 (t2 >>> 14))

/-- Math.floor(rng() * n) with rng() = k / 2^32: exact integer value
floor(k * n / 2^32).  (The float product is exactly this for every n used
in the development: n below 2^21 or a power of two.) -/
def drawIndex (k n : Nat) : Nat := k * n / UINT32

/-- The mine placement while-loop of generateBoard, with explicit fuel:
none models the loop still running after fuel iterations (in particular,
if no fuel suffices the loop never terminates). -/
def placeMinesLoop (rows cols mines : Nat) :
    Nat → Nat → Board → Nat → Option Board
  | 0, _, _, _ => none
  | fuel + 1, state, board, placed =>
    if placed < mines then
      let p1 := mulberry32 state
      let p2 := mulberry32 p1.1
      let row := drawIndex p1.2 rows
      let col := drawIndex p2.2 cols
      if (getCellD board row col).isMine then
        placeMinesLoop rows cols mines fuel p2.1 board placed
      else
        placeMinesLoop rows cols mines fuel p2.1 (setMine board row col) (placed + 1)
    else some board

/-- generateBoard(rows, cols, mines, seed): empty board, then the
placement loop. -/
def generateBoard (rows cols mines : Nat) (seed : List Nat) (fuel : Nat) :
    Option Board :=
  placeMinesLoop rows cols mines fuel (seedState seed) (createBoard rows cols) 0

/-! ### calculateNumbers, getNeighbors (boardGenerator.ts / gameLogic.ts) -/

/-- The 8 neighbor offsets, in the order the dr/dc loops visit them
(dr = -1..1 outer, dc = -1..1 inner, skipping (0,0)). -/
def neighborOffsets : List (Int × Int) :=
  [(-1, -1), (-1, 0), (-1, 1), (0, -1), (0, 1), (1, -1), (1, 0), (1, 1)]

/-- The full 3x3 scan including the center, in loop order (the isSafe scan
and the unsafe-area scan of ensureFirstClickSafety do not skip (0,0)). -/
def scanOffsets : List (Int × Int) :=
  [(-1, -1), (-1, 0), (-1, 1), (0, -1), (0, 0), (0, 1), (1, -1), (1, 0), (1, 1)]

/-- The neighbor-mine count of cell (r, c): the inner dr/dc loop of
calculateNumbers, counting in-bounds mined neighbors. -/
def countAdjMines (b : Board) (r c : Nat) : Nat :=
  (neighborOffsets.filterMap (fun d => getCell? b ((r : Int) + d.1) ((c : Int) + d.2))).countP
    (fun cell => cell.isMine)

/-- calculateNumbers: writes the neighbor-mine count into every non-mine
cell, skipping mines.  The double loop mutates only the neighborMines
fields and reads only isMine fields, so it is embedded as a pure rebuild
of the rows x cols grid from the original board. -/
def calculateNumbers (b : Board) : Board :=
  (List.range (rowsOf b)).map (fun r => (List.range (colsOf b)).map (fun c =>
    let cell := getCellD b r c
    if cell.isMine then cell
    else { cell with neighborMines := countAdjMines b r c }))

/-- getNeighbors: the in-bounds cells at the 8 neighbor offsets, in loop
order. -/
def getNeighbors (b : Board) (row col : Int) : List Cell :=
  neighborOffsets.filterMap (fun d => getCell? b (row + d.1) (col + d.2))

/-! ### revealCell (gameLogic.ts) -/

/-- revealCell with explicit fuel for the flood-fill recursion.  Each
nested call reveals one previously unrevealed cell before recursing, so
any fuel larger than the number of cells is never exhausted; the fuel-0
branch is unreachable from the wrapper below.  The neighbor loop re-reads
each neighbor from the current board (the JavaScript loop reads live cell
objects mutated by earlier recursive calls); a neighbor position comes
from the stored row/col fields of the cell, which are never mutated. -/
def revealCellFuel : Nat → Board → Int → Int → Board
  | 0, b, _, _ => b
  | fuel + 1, b, row, col =>
    match getCell? b row col with
    | none => b
    | some cell =>
      if cell.isFlagged || cell.isRevealed then b
      else
        let b1 := setRevealed b row.toNat col.toNat
        if cell.isMine then b1
        else if 0 < cell.neighborMines then b1
        else
          (getNeighbors b1 row col).foldl (fun acc n =>
            match getCell? acc (n.row : Int) (n.col : Int) with
            | some nc =>
              if !nc.isRevealed && !nc.isFlagged then
                revealCellFuel fuel acc (n.row : Int) (n.col : Int)
              else acc
            | none => acc) b1

/-- revealCell(board, row, col). -/
def revealCell (b : Board) (row col : Int) : Board :=
  revealCellFuel (rowsOf b * colsOf b + 1) b row col

/-! ### checkWin (gameLogic.ts) -/

/-- The row-major cell positions (r, c) with r < rows, c < cols, in the
order the double loops of the source visit them. -/
def cellsRowMajor (rows cols : Nat) : List (Nat × Nat) :=
  (List.range rows).flatMap (fun r => (List.range cols).map (fun c => (r, c)))

/-- The revealedCount loop of checkWin: board[r][c].isRevealed counted
over r < rows, c < cols. -/
def revealedCount (b : Board) : Nat :=
  ((cellsRowMajor (rowsOf b) (colsOf b)).filter
    (fun p => (getCellD b p.1 p.2).isRevealed)).length

/-- checkWin(board, totalMines): revealedCount === totalCells - totalMines.
totalMines is a JavaScript number, so the subtraction is over Int. -/
def checkWin (b : Board) (totalMines : Int) : Bool :=
  (revealedCount b : Int) = (rowsOf b : Int) * (colsOf b : Int) - totalMines

/-! ### canChord, chord (chordLogic.ts) -/

/-- canChord(board, row, col). -/
def canChord (b : Board) (row col : Int) : Bool :=
  match getCell? b row col with
  | none => false
  | some cell =>
    if !cell.isRevealed then false
    else if cell.neighborMines = 0 then false
    else ((getNeighbors b row col).filter (fun n => n.isFlagged)).length = cell.neighborMines

/-- chord(board, row, col): the unflagged, unrevealed neighbors when
canChord holds, otherwise the empty list.  The source only reads the
board (getNeighbors and two filters), so chord is a pure function of it. -/
def chord (b : Board) (row col : Int) : List Cell :=
  if canChord b row col then
    (getNeighbors b row col).filter (fun n => !n.isFlagged && !n.isRevealed)
  else []

/-! ### ensureFirstClickSafety (boardGenerator.ts) -/

/-- The isSafe neighbor scan: some in-bounds cell of the clipped 3x3
neighborhood of the click (center included, as in the source) is a mine. -/
def neighborhoodHasMine (b : Board) (fr fc : Int) : Bool :=
  scanOffsets.any (fun d =>
    match getCell? b (fr + d.1) (fc + d.2) with
    | some cell => cell.isMine
    | none => false)

/-- The unsafeCells set: the in-bounds positions of the clipped 3x3
neighborhood of the click, in loop order. -/
def unsafeCellsFor (b : Board) (fr fc : Int) : List (Nat × Nat) :=
  scanOffsets.filterMap (fun d =>
    let nr := fr + d.1
    let nc := fc + d.2
    if InBounds b nr nc then some (nr.toNat, nc.toNat) else none)

/-- minesInUnsafeArea: row-major positions holding a mine inside the
unsafe area. -/
def minesInUnsafeArea (b : Board) (fr fc : Int) : List (Nat × Nat) :=
  (cellsRowMajor (rowsOf b) (colsOf b)).filter (fun p =>
    (getCellD b p.1 p.2).isMine && (unsafeCellsFor b fr fc).contains p)

/-- safeCellsWithoutMines: row-major positions outside the unsafe area
holding no mine. -/
def safeCellsWithoutMines (b : Board) (fr fc : Int) : List (Nat × Nat) :=
  (cellsRowMajor (rowsOf b) (colsOf b)).filter (fun p =>
    !(getCellD b p.1 p.2).isMine && !((unsafeCellsFor b fr fc).contains p))

/-- The move loop: for each (source, destination) pair, clear the mine at
the source and set one at the destination. -/
def moveMines (b : Board) (pairs : List ((Nat × Nat) × (Nat × Nat))) : Board :=
  pairs.foldl (fun acc sd => setMine (clearMine acc sd.1.1 sd.1.2) sd.2.1 sd.2.2) b

/-- ensureFirstClickSafety(board, firstClickRow, firstClickCol).  The
source dereferences board[firstClickRow][firstClickCol] without any
bounds check, which throws a TypeError when the click is out of bounds
(or the board is empty, where board[0].length already throws); none
embeds that exception.  List.zip truncates at the shorter list, which is
exactly movesToMake = min(|minesInUnsafeArea|, |safeCellsWithoutMines|). -/
def ensureFirstClickSafety (b : Board) (fr fc : Int) : Option Board :=
  match getCell? b fr fc with
  | none => none
  | some clickCell =>
    if !clickCell.isMine && !neighborhoodHasMine b fr fc then some b
    else
      some (calculateNumbers
        (moveMines b ((minesInUnsafeArea b fr fc).zip (safeCellsWithoutMines b fr fc))))

/-! ### Game session state (composables/useGameState.ts) -/

/-- The GameStatus union of types/game.ts
('initial' | 'playing' | 'won' | 'lost'); the gameState ref starts with
the empty string cast to GameStatus, so that out-of-union value is a
constructor too. -/
inductive GameStatus where
  | empty
  | initial
  | playing
  | won
  | lost
  deriving Repr, DecidableEq

/-- The argument type of endGame. -/
inductive GameResult where
  | won
  | lost
  deriving Repr, DecidableEq

def GameResult.toStatus : GameResult → GameStatus
  | .won => .won
  | .lost => .lost

/-- The Difficulty record of types/game.ts: a display name plus the
rows/cols/mines numbers (the session code reads difficulty.rows and
difficulty.cols). -/
structure Difficulty where
  name : String
  rows : Nat
  cols : Nat
  mines : Nat
  deriving Repr, DecidableEq

/-- The GameData record of types/game.ts, held by the gameState ref. -/
structure GameData where
  board : Board
  status : GameStatus
  timer : Nat
  flags : Int
  firstClick : Bool
  deriving Repr, DecidableEq

/-- The state owned by one useGameState() instance: the difficulty ref
(initially null) and the gameState ref. -/
structure Session where
  difficulty : Option Difficulty
  gameState : GameData
  deriving Repr, DecidableEq

/-- The refs as first created. -/
def initialSession : Session :=
  { difficulty := none,
    gameState :=
      { board := [], status := .empty, timer := 0, flags := 0, firstClick := true } }

def Session.newGame (_s : Session) (d : Difficulty) : Session :=
  { difficulty := some d,
    gameState :=
      { board := createBoard d.rows d.cols, status := .initial, timer := 0,
        flags := 0, firstClick := true } }

/-- startGame: if the status is not already playing, set it to playing. -/
def Session.startGame (s : Session) : Session :=
  if s.gameState.status ≠ .playing then
    { s with gameState := { s.gameState with status := .playing } }
  else s

def Session.endGame (s : Session) (result : GameResult) : Session :=
  { s with gameState := { s.gameState with status := result.toStatus } }

def Session.updateTimer (s : Session) : Session :=
  { s with gameState := { s.gameState with timer := s.gameState.timer + 1 } }

/-- isValidCell: false while difficulty is null, else a bounds test
against the difficulty dimensions. -/
def Session.isValidCell (s : Session) (row col : Int) : Bool :=
  match s.difficulty with
  | none => false
  | some d => 0 ≤ row ∧ row < (d.rows : Int) ∧ 0 ≤ col ∧ col < (d.cols : Int)

/-- The session revealCell together with its revealNeighbors helper
(which iterates the 8 offsets, checks validity and recurses through
revealCell), with fuel for the mutual flood recursion as above. -/
def Session.revealCellFuel : Nat → Session → Int → Int → Session
  | 0, s, _, _ => s
  | fuel + 1, s, row, col =>
    if s.isValidCell row col then
      let cell := getCellD s.gameState.board row.toNat col.toNat
      if cell.isRevealed || cell.isFlagged || s.gameState.status ≠ .playing then s
      else
        let s1 :=
          { s with gameState :=
              { s.gameState with
                  board := setRevealed s.gameState.board row.toNat col.toNat } }
        if cell.neighborMines = 0 && !cell.isMine then
          neighborOffsets.foldl (fun acc d =>
            let nr := row + d.1
            let nc := col + d.2
            if acc.isValidCell nr nc then
              let ncell := getCellD acc.gameState.board nr.toNat nc.toNat
              if !ncell.isRevealed && !ncell.isFlagged then
                Session.revealCellFuel fuel acc nr nc
              else acc
            else acc) s1
        else s1
    else s

/-- The session revealCell entry point. -/
def Session.revealCellOp (s : Session) (row col : Int) : Session :=
  Session.revealCellFuel (rowsOf s.gameState.board * colsOf s.gameState.board + 1) s row col

/-- flagCell: toggle the flag of a valid unrevealed cell and adjust the
flags counter by +1 when the cell becomes flagged, -1 when it becomes
unflagged. -/
def Session.flagCell (s : Session) (row col : Int) : Session :=
  if s.isValidCell row col then
    let cell := getCellD s.gameState.board row.toNat col.toNat
    if cell.isRevealed then s
    else
      { s with gameState :=
          { s.gameState with
              board := toggleFlag s.gameState.board row.toNat col.toNat,
              flags := s.gameState.flags + (if !cell.isFlagged then 1 else -1) } }
  else s

/-- One call to a method returned by useGameState(). -/
inductive SessionOp where
  | newGame (d : Difficulty)
  | startGame
  | endGame (result : GameResult)
  | updateTimer
  | revealCell (row col : Int)
  | flagCell (row col : Int)
  deriving Repr, DecidableEq

def applyOp (s : Session) : SessionOp → Session
  | .newGame d => s.newGame d
  | .startGame => s.startGame
  | .endGame r => s.endGame r
  | .updateTimer => s.updateTimer
  | .revealCell row col => s.revealCellOp row col
  | .flagCell row col => s.flagCell row col

def applyOps (s : Session) (ops : List SessionOp) : Session :=
  ops.foldl applyOp s

/-! ### Infrastructure lemmas: cell updates, counting, grids -/

theorem getD_set_self {α : Type} (l : List α) (i : Nat) (x d : α)
    (h : i < l.length) : (l.set i x).getD i d = x := by
  rw [List.getD_eq_getElem?_getD, List.getElem?_set_self h, Option.getD_some]

theorem getD_set_of_ne {α : Type} (l : List α) (i j : Nat) (x d : α)
    (h : i ≠ j) : (l.set i x).getD j d = l.getD j d := by
  rw [List.getD_eq_getElem?_getD, List.getElem?_set_ne h,
    ← List.getD_eq_getElem?_getD]

theorem length_modifyCell (b : Board) (r c : Nat) (f : Cell → Cell) :
    (modifyCell b r c f).length = b.length := by
  simp [modifyCell]

theorem getDrow_modifyCell (b : Board) (r c : Nat) (f : Cell → Cell) (i : Nat) :
    ((modifyCell b r c f).getD i []).length = (b.getD i []).length := by
  unfold modifyCell
  rcases Nat.lt_or_ge r b.length with hr | hr
  · rcases eq_or_ne r i with rfl | hne
    · rw [getD_set_self _ _ _ _ hr, List.length_set]
    · rw [getD_set_of_ne _ _ _ _ _ hne]
  · rw [List.set_eq_of_length_le hr]

theorem rowsOf_modifyCell (b : Board) (r c : Nat) (f : Cell → Cell) :
    rowsOf (modifyCell b r c f) = rowsOf b := length_modifyCell b r c f

theorem colsOf_modifyCell (b : Board) (r c : Nat) (f : Cell → Cell) :
    colsOf (modifyCell b r c f) = colsOf b := by
  unfold colsOf
  rw [getDrow_modifyCell]

theorem getCellD_modifyCell_self (b : Board) (r c : Nat) (f : Cell → Cell)
    (hr : r < b.length) (hc : c < (b.getD r []).length) :
    getCellD (modifyCell b r c f) r c = f (getCellD b r c) := by
  unfold modifyCell getCellD
  rw [getD_set_self _ _ _ _ hr, getD_set_self _ _ _ _ hc]

theorem getCellD_modifyCell_ne (b : Board) (r c : Nat) (f : Cell → Cell)
    (r' c' : Nat) (h : ¬(r = r' ∧ c = c')) :
    getCellD (modifyCell b r c f) r' c' = getCellD b r' c' := by
  unfold modifyCell getCellD
  rcases eq_or_ne r r' with rfl | hne
  · have hc' : c ≠ c' := fun hcc => h ⟨rfl, hcc⟩
    rcases Nat.lt_or_ge r b.length with hr | hr
    · rw [getD_set_self _ _ _ _ hr, getD_set_of_ne _ _ _ _ _ hc']
    · rw [List.set_eq_of_length_le hr]
  · rw [getD_set_of_ne _ _ _ _ _ hne]

theorem sum_set_int (L : List Nat) (i : Nat) (a : Nat) (h : i < L.length) :
    (((L.set i a).sum : Nat) : Int) = (L.sum : Int) + a - L[i] := by
  induction L generalizing i with
  | nil => simp at h
  | cons x L ih =>
    cases i with
    | zero =>
      simp only [List.set, List.sum_cons, List.getElem_cons_zero]
      push_cast
      ring
    | succ i =>
      simp only [List.set, List.sum_cons, List.getElem_cons_succ]
      have := ih i (by simpa using Nat.lt_of_succ_lt_succ h)
      push_cast at this ⊢
      omega

theorem countB_modifyCell (b : Board) (r c : Nat) (f : Cell → Cell)
    (p : Cell → Bool)
    (hr : r < b.length) (hc : c < (b.getD r []).length) :
    (countB p (modifyCell b r c f) : Int) =
      (countB p b : Int) + (if p (f (getCellD b r c)) then 1 else 0)
        - (if p (getCellD b r c) then 1 else 0) := by
  unfold modifyCell countB
  have hrow : b.getD r [] = b[r] := List.getD_eq_getElem b [] hr
  rw [List.map_set]
  have hrm : r < (b.map (fun row => row.countP p)).length := by simpa using hr
  rw [sum_set_int _ r _ hrm]
  have hcell : getCellD b r c = (b.getD r [])[c] := List.getD_eq_getElem _ _ hc
  rw [List.countP_set p _ c _ hc]
  have hgetmap : (b.map (fun row => row.countP p))[r] = b[r].countP p :=
    List.getElem_map _
  rw [hgetmap, ← hrow, ← hcell]
  have hpos : p (getCellD b r c) = true → 0 < (b.getD r []).countP p := fun hpt =>
    List.countP_pos_iff.2 ⟨(b.getD r [])[c], List.getElem_mem hc, hcell ▸ hpt⟩
  split_ifs <;> (try have := hpos (by assumption)) <;> omega

/-- Shape equality used to transport bounds between boards. -/
def SameShape (b b' : Board) : Prop :=
  b'.length = b.length ∧ ∀ i, (b'.getD i []).length = (b.getD i []).length

theorem SameShape.refl (b : Board) : SameShape b b := ⟨rfl, fun _ => rfl⟩

theorem SameShape.trans {a b c : Board} (h1 : SameShape a b) (h2 : SameShape b c) :
    SameShape a c := ⟨h2.1.trans h1.1, fun i => (h2.2 i).trans (h1.2 i)⟩

theorem sameShape_modifyCell (b : Board) (r c : Nat) (f : Cell → Cell) :
    SameShape b (modifyCell b r c f) :=
  ⟨length_modifyCell b r c f, getDrow_modifyCell b r c f⟩

theorem SameShape.rowsOf {b b' : Board} (h : SameShape b b') :
    rowsOf b' = rowsOf b := h.1

theorem SameShape.colsOf {b b' : Board} (h : SameShape b b') :
    colsOf b' = colsOf b := h.2 0

/-! Grid boards: both createBoard and calculateNumbers produce a board of
the form (List.range R).map fun r => (List.range C).map fun c => g r c. -/

theorem length_gridBoard (R C : Nat) (g : Nat → Nat → Cell) :
    ((List.range R).map (fun r => (List.range C).map (fun c => g r c))).length = R := by
  simp

theorem getDrow_gridBoard (R C : Nat) (g : Nat → Nat → Cell) (i : Nat) (h : i < R) :
    ((List.range R).map (fun r => (List.range C).map (fun c => g r c))).getD i []
      = (List.range C).map (fun c => g i c) := by
  rw [List.getD_eq_getElem _ _ (by simpa using h)]
  simp

theorem getDrow_gridBoard_len (R C : Nat) (g : Nat → Nat → Cell) (i : Nat) :
    (((List.range R).map (fun r => (List.range C).map (fun c => g r c))).getD i []).length
      = if i < R then C else 0 := by
  rcases Nat.lt_or_ge i R with h | h
  · rw [getDrow_gridBoard R C g i h, if_pos h]
    simp
  · rw [List.getD_eq_default _ _ (by simpa using h), if_neg (by omega)]
    rfl

theorem getCellD_gridBoard (R C : Nat) (g : Nat → Nat → Cell) (r c : Nat)
    (hr : r < R) (hc : c < C) :
    getCellD ((List.range R).map (fun r => (List.range C).map (fun c => g r c))) r c
      = g r c := by
  unfold getCellD
  rw [getDrow_gridBoard R C g r hr, List.getD_eq_getElem _ _ (by simpa using hc)]
  simp

theorem rowsOf_createBoard (R C : Nat) : rowsOf (createBoard R C) = R :=
  length_gridBoard R C _

theorem colsOf_createBoard (R C : Nat) (h : 0 < R) : colsOf (createBoard R C) = C := by
  unfold colsOf createBoard
  rw [getDrow_gridBoard_len, if_pos h]

theorem getCellD_createBoard (R C r c : Nat) (hr : r < R) (hc : c < C) :
    getCellD (createBoard R C) r c =
      { row := r, col := c, isMine := false, isRevealed := false,
        isFlagged := false, neighborMines := 0 } :=
  getCellD_gridBoard R C _ r c hr hc

theorem rowsOf_calculateNumbers (b : Board) :
    rowsOf (calculateNumbers b) = rowsOf b :=
  length_gridBoard _ _ _

theorem colsOf_calculateNumbers (b : Board) (h : 0 < rowsOf b) :
    colsOf (calculateNumbers b) = colsOf b := by
  unfold colsOf calculateNumbers
  rw [getDrow_gridBoard_len, if_pos h]
  rfl

theorem getCellD_calculateNumbers (b : Board) (r c : Nat)
    (hr : r < rowsOf b) (hc : c < colsOf b) :
    getCellD (calculateNumbers b) r c =
      (let cell := getCellD b r c
       if cell.isMine then cell
       else { cell with neighborMines := countAdjMines b r c }) :=
  getCellD_gridBoard _ _ _ r c hr hc

theorem isMine_calculateNumbers (b : Board) (r c : Nat)
    (hr : r < rowsOf b) (hc : c < colsOf b) :
    (getCellD (calculateNumbers b) r c).isMine = (getCellD b r c).isMine := by
  rw [getCellD_calculateNumbers b r c hr hc]
  by_cases h : (getCellD b r c).isMine <;> simp [h]

/-! Row-major scans: relating per-row counts to position lists. -/

theorem mem_cellsRowMajor (R C : Nat) (p : Nat × Nat) :
    p ∈ cellsRowMajor R C ↔ p.1 < R ∧ p.2 < C := by
  unfold cellsRowMajor
  rcases p with ⟨r, c⟩
  simp only [List.mem_flatMap, List.mem_map, List.mem_range]
  constructor
  · rintro ⟨a, ha, b, hb, hab⟩
    obtain ⟨rfl, rfl⟩ := Prod.mk.injEq .. ▸ hab
    exact ⟨ha, hb⟩
  · rintro ⟨h1, h2⟩
    exact ⟨r, h1, c, h2, rfl⟩

theorem nodup_cellsRowMajor (R C : Nat) : (cellsRowMajor R C).Nodup := by
  unfold cellsRowMajor
  rw [List.nodup_flatMap]
  refine ⟨fun r _ => ?_, ?_⟩
  · exact (List.nodup_range C).map (fun a b h => congrArg Prod.snd h)
  · have : ∀ a b : Nat, a ≠ b →
        List.Disjoint ((List.range C).map (fun c => (a, c)))
          ((List.range C).map (fun c => (b, c))) := by
      intro a b hab x hxa hxb
      obtain ⟨c1, _, rfl⟩ := List.mem_map.1 hxa
      obtain ⟨c2, _, h2⟩ := List.mem_map.1 hxb
      exact hab (congrArg Prod.fst h2.symm)
    exact (List.pairwise_lt_range R).imp (fun h => this _ _ (Nat.ne_of_lt h))

theorem contains_iff_mem_pairs (l : List (Nat × Nat)) (p : Nat × Nat) :
    l.contains p = true ↔ p ∈ l := by
  simp [List.contains]

theorem countP_eq_range {α : Type} (p : α → Bool) (d : α) (l : List α) :
    l.countP p = ((List.range l.length).filter (fun i => p (l.getD i d))).length := by
  induction l with
  | nil => simp
  | cons x l ih =>
    by_cases hx : p x <;>
      simp [List.countP_cons, List.range_succ_eq_map, List.filter_cons, hx,
        List.filter_map, Function.comp, List.getD, ih] <;>
      exact congrArg List.length
        (List.filter_congr (q := (fun i => p ((x :: l)[i]?.getD d)) ∘ Nat.succ)
          (fun i _ => by simp [Function.comp]))

theorem map_eq_range_map {α β : Type} (f : α → β) (d : α) (l : List α) :
    l.map f = (List.range l.length).map (fun i => f (l.getD i d)) := by
  induction l with
  | nil => rfl
  | cons x l ih =>
    rw [List.map_cons, List.length_cons, List.range_succ_eq_map, List.map_cons,
      List.map_map]
    have hcomp : ((fun i => f ((x :: l).getD i d)) ∘ Nat.succ) = fun i => f (l.getD i d) := by
      funext i
      rfl
    rw [hcomp, ← ih]
    rfl

/-- For a rectangular R x C board, the number of cells satisfying p equals
the number of row-major positions whose cell satisfies p. -/
theorem countB_eq_scan (p : Cell → Bool) (b : Board) (R C : Nat)
    (hlen : b.length = R) (hrows : ∀ row ∈ b, row.length = C) :
    countB p b = ((cellsRowMajor R C).filter (fun q => p (getCellD b q.1 q.2))).length := by
  subst hlen
  unfold countB cellsRowMajor
  induction b with
  | nil => simp
  | cons row b ih =>
    rw [List.map_cons, List.sum_cons, List.length_cons, List.range_succ_eq_map]
    rw [List.flatMap_cons]
    have hmapbind :
        (List.map Nat.succ (List.range b.length)).flatMap
            (fun r => (List.range C).map (fun c => (r, c)))
          = List.map (fun q => (q.1 + 1, q.2))
              ((List.range b.length).flatMap (fun r => (List.range C).map (fun c => (r, c)))) := by
      rw [List.flatMap_map, List.map_flatMap]
      congr 1
      funext r
      rw [List.map_map]
      rfl
    rw [hmapbind, List.filter_append, List.length_append]
    have h1 : (List.filter (fun q => p (getCellD (row :: b) q.1 q.2))
        ((List.range C).map (fun c => ((0 : Nat), c)))).length = row.countP p := by
      rw [List.filter_map]
      rw [List.length_map]
      have : ((fun q => p (getCellD (row :: b) q.1 q.2)) ∘ (fun c => ((0 : Nat), c)))
          = fun c => p (row.getD c defaultCell) := by
        funext c
        simp [getCellD]
      rw [this, countP_eq_range p defaultCell row, hrows row (List.mem_cons_self row b)]
    have h2 : (List.filter (fun q => p (getCellD (row :: b) q.1 q.2))
        (List.map (fun q : Nat × Nat => (q.1 + 1, q.2))
          ((List.range b.length).flatMap (fun r => (List.range C).map (fun c => (r, c)))))).length
        = (b.map (fun r => r.countP p)).sum := by
      rw [List.filter_map, List.length_map]
      have : ((fun q => p (getCellD (row :: b) q.1 q.2)) ∘ (fun q : Nat × Nat => (q.1 + 1, q.2)))
          = fun q : Nat × Nat => p (getCellD b q.1 q.2) := by
        funext q
        simp [getCellD]
      rw [this, ← ih (fun r hr => hrows r (List.mem_cons_of_mem _ hr))]
    rw [h1, h2]

/-! ### Claim C7: checkWin -/

/-- A board with the same cells but arbitrary isFlagged values. -/
def mapFlags (g : Cell → Bool) (b : Board) : Board :=
  b.map (fun row => row.map (fun cell => { cell with isFlagged := g cell }))

theorem getDrow_mapFlags (g : Cell → Bool) (b : Board) (i : Nat) :
    (mapFlags g b).getD i [] = (b.getD i []).map (fun cell => { cell with isFlagged := g cell }) := by
  unfold mapFlags
  rw [List.getD_eq_getElem?_getD, List.getD_eq_getElem?_getD, List.getElem?_map]
  rcases b[i]? with _ | row <;> rfl

theorem rowsOf_mapFlags (g : Cell → Bool) (b : Board) :
    rowsOf (mapFlags g b) = rowsOf b := by
  simp [mapFlags, rowsOf]

theorem colsOf_mapFlags (g : Cell → Bool) (b : Board) :
    colsOf (mapFlags g b) = colsOf b := by
  unfold colsOf
  rw [getDrow_mapFlags, List.length_map]

theorem isRevealed_mapFlags (g : Cell → Bool) (b : Board) (r c : Nat) :
    (getCellD (mapFlags g b) r c).isRevealed = (getCellD b r c).isRevealed := by
  unfold getCellD
  rw [getDrow_mapFlags]
  rcases Nat.lt_or_ge c (b.getD r []).length with hc | hc
  · rw [List.getD_eq_getElem _ _ (by simpa using hc), List.getD_eq_getElem _ _ hc,
      List.getElem_map]
  · rw [List.getD_eq_default _ _ (by simpa using hc), List.getD_eq_default _ _ hc]

theorem revealedCount_mapFlags (g : Cell → Bool) (b : Board) :
    revealedCount (mapFlags g b) = revealedCount b := by
  unfold revealedCount
  rw [rowsOf_mapFlags, colsOf_mapFlags]
  exact congrArg List.length
    (List.filter_congr (fun q _ => by rw [isRevealed_mapFlags]))

/-- C7: checkWin(board, totalMines) is true exactly when the number of
revealed cells equals rows*cols - totalMines (as JavaScript numbers, i.e.
over Int), and its value does not depend on any isFlagged field. -/
theorem checkWin_revealed_iff_flag_independent (b : Board) (m : Int) (g : Cell → Bool) :
    (checkWin b m = true ↔
      (revealedCount b : Int) = (rowsOf b : Int) * (colsOf b : Int) - m)
    ∧ checkWin (mapFlags g b) m = checkWin b m := by
  constructor
  · unfold checkWin
    exact decide_eq_true_iff
  · unfold checkWin
    rw [revealedCount_mapFlags, rowsOf_mapFlags, colsOf_mapFlags]

/-! ### Claim C6: canChord / chord -/

/-- C6: canChord holds exactly when the cell exists (in bounds), is
revealed, has a nonzero neighbor-mine count, and the number of flagged
in-bounds neighbors equals that count; chord returns the empty list when
canChord fails and exactly the unflagged, unrevealed in-bounds neighbors
when it holds.  (chord only reads the board — in the embedding it returns
just the candidate list, the board value is untouched by construction.) -/
theorem canChord_chord_spec (b : Board) (row col : Int) :
    (canChord b row col = true ↔
      ∃ cell, getCell? b row col = some cell ∧ cell.isRevealed = true ∧
        cell.neighborMines ≠ 0 ∧
        ((getNeighbors b row col).filter (fun n => n.isFlagged)).length = cell.neighborMines)
    ∧ (canChord b row col = false → chord b row col = [])
    ∧ (canChord b row col = true →
        chord b row col = (getNeighbors b row col).filter (fun n => !n.isFlagged && !n.isRevealed)) := by
  refine ⟨?_, ?_, ?_⟩
  · unfold canChord
    rcases hg : getCell? b row col with _ | cell
    · simp
    · simp only [hg, Option.some.injEq]
      constructor
      · intro h
        refine ⟨cell, rfl, ?_, ?_, ?_⟩ <;>
          · by_cases h1 : cell.isRevealed <;> by_cases h2 : cell.neighborMines = 0 <;>
              simp [h1, h2] at h ⊢ <;> simp_all
      · rintro ⟨cell', hcell', h1, h2, h3⟩
        cases hcell'
        simp [h1, h2, h3]
  · intro h
    unfold chord
    rw [if_neg (by simp [h])]
  · intro h
    unfold chord
    rw [if_pos h]

/-- A 3x3 board with mines at (0,0) and (0,2), both flagged, and the
middle cell (with neighborMines = 2) revealed: a chordable position. -/
def demoChordBoard : Board :=
  setRevealed
    (toggleFlag
      (toggleFlag (calculateNumbers (setMine (setMine (createBoard 3 3) 0 0) 0 2)) 0 0)
      0 2)
    1 1

/-- C6 witness: on the concrete chordable board, canChord holds at (1,1)
and chord returns exactly the unflagged, unrevealed neighbors. -/
theorem canChord_chord_witness :
    canChord demoChordBoard 1 1 = true ∧
      chord demoChordBoard 1 1 =
        (getNeighbors demoChordBoard 1 1).filter (fun n => !n.isFlagged && !n.isRevealed) :=
  ⟨by decide, (canChord_chord_spec demoChordBoard 1 1).2.2 (by decide)⟩

/-! ### Claim C2: out-of-bounds handling -/

/-- C2 counterexample board: an ordinary 1x1 board. -/
def demoBoard1 : Board := createBoard 1 1

/-- C2 counterexample: the claim says every core operation treats an
out-of-bounds position as a silent no-op, but ensureFirstClickSafety
dereferences board[firstClickRow][firstClickCol] without any bounds
check; at the out-of-bounds click (5, 5) on a 1x1 board the access is
undefined and the JavaScript call throws a TypeError (embedded as none)
instead of returning the board. -/
theorem ensureFirstClickSafety_oob_throws :
    ensureFirstClickSafety demoBoard1 5 5 = none := by decide

/-- C2 amended: revealCell, canChord and chord do bounds-check first and
treat any out-of-bounds (row, col) as a no-op: revealCell returns the
board unchanged, canChord returns false, chord returns the empty list. -/
theorem oob_noop_revealCell_canChord_chord (b : Board) (row col : Int)
    (h : ¬ InBounds b row col) :
    revealCell b row col = b ∧ canChord b row col = false ∧ chord b row col = [] := by
  have hget : getCell? b row col = none := by
    unfold getCell?
    rw [if_neg h]
  have hcc : canChord b row col = false := by
    unfold canChord
    rw [hget]
  refine ⟨?_, hcc, ?_⟩
  · unfold revealCell revealCellFuel
    rw [hget]
  · unfold chord
    rw [if_neg (by simp [hcc])]

/-- C2 witness: the amended no-op behavior at the concrete out-of-bounds
position (5, 5) of a 1x1 board. -/
theorem oob_noop_witness :
    revealCell demoBoard1 5 5 = demoBoard1 ∧ canChord demoBoard1 5 5 = false ∧
      chord demoBoard1 5 5 = [] :=
  oob_noop_revealCell_canChord_chord demoBoard1 5 5 (by decide)

/-! ### Claim C5: flood fill on the 3x3 single-mine board -/

/-- The 3x3 board of the spec example: a single mine at (2, 2), neighbor
counts computed by calculateNumbers, nothing revealed or flagged. -/
def exampleBoard3 : Board := calculateNumbers (setMine (createBoard 3 3) 2 2)

/-- C5: revealing (0, 0) floods every cell except the mine at (2, 2),
which stays unrevealed. -/
theorem revealCell_floods_exampleBoard3 :
    (∀ r, r < 3 → ∀ c, c < 3 → ¬(r = 2 ∧ c = 2) →
      (getCellD (revealCell exampleBoard3 0 0) r c).isRevealed = true)
    ∧ (getCellD (revealCell exampleBoard3 0 0) 2 2).isRevealed = false := by
  decide

/-- C5 witness: the flood result at the concrete corner cell (0, 2). -/
theorem revealCell_floods_witness :
    (getCellD (revealCell exampleBoard3 0 0) 0 2).isRevealed = true :=
  revealCell_floods_exampleBoard3.1 0 (by decide) 2 (by decide) (by decide)

/-! ### Claim C8: revealCell no-op cases and idempotence -/

theorem getCellD_modifyCell (b : Board) (r c : Nat) (f : Cell → Cell) (p q : Nat) :
    getCellD (modifyCell b r c f) p q =
      if r = p ∧ c = q ∧ r < b.length ∧ c < (b.getD r []).length then
        f (getCellD b r c)
      else getCellD b p q := by
  by_cases h : r = p ∧ c = q
  · obtain ⟨rfl, rfl⟩ := h
    by_cases hr : r < b.length
    · by_cases hc : c < (b.getD r []).length
      · rw [if_pos ⟨rfl, rfl, hr, hc⟩]
        exact getCellD_modifyCell_self b r c f hr hc
      · rw [if_neg (by tauto)]
        unfold modifyCell
        rw [List.set_eq_of_length_le (le_of_not_lt hc)]
        unfold getCellD
        rw [getD_set_self _ _ _ _ hr]
    · rw [if_neg (by tauto)]
      unfold modifyCell
      rw [List.set_eq_of_length_le (le_of_not_lt hr)]
  · rw [if_neg (by tauto)]
    exact getCellD_modifyCell_ne b r c f p q h

theorem isRevealed_setRevealed_mono (b : Board) (r c p q : Nat)
    (h : (getCellD b p q).isRevealed = true) :
    (getCellD (setRevealed b r c) p q).isRevealed = true := by
  unfold setRevealed
  rw [getCellD_modifyCell]
  split
  · rfl
  · exact h

/-- The flood fill preserves revealed cells (it only ever sets
isRevealed). -/
theorem revealCellFuel_mono (f : Nat) (b : Board) (r c : Int) (p q : Nat)
    (h : (getCellD b p q).isRevealed = true) :
    (getCellD (revealCellFuel f b r c) p q).isRevealed = true := by
  induction f generalizing b r c with
  | zero => exact h
  | succ f ih =>
    unfold revealCellFuel
    rcases hget : getCell? b r c with _ | cell
    · exact h
    · by_cases hfr : cell.isFlagged || cell.isRevealed
      · simp only [hfr, if_true]
        exact h
      · simp only [hfr, if_false]
        have hb1 : (getCellD (setRevealed b r.toNat c.toNat) p q).isRevealed = true :=
          isRevealed_setRevealed_mono b r.toNat c.toNat p q h
        by_cases hm : cell.isMine
        · simp only [hm, if_true]
          exact hb1
        · simp only [hm, if_false]
          by_cases hn : 0 < cell.neighborMines
          · simp only [hn, if_true]
            exact hb1
          · simp only [hn, if_false]
            have hfold : ∀ (ns : List Cell) (acc : Board),
                (getCellD acc p q).isRevealed = true →
                (getCellD (ns.foldl (fun acc n =>
                  match getCell? acc (n.row : Int) (n.col : Int) with
                  | some nc =>
                    if !nc.isRevealed && !nc.isFlagged then
                      revealCellFuel f acc (n.row : Int) (n.col : Int)
                    else acc
                  | none => acc) acc) p q).isRevealed = true := by
              intro ns
              induction ns with
              | nil => exact fun acc hacc => hacc
              | cons n ns ihn =>
                intro acc hacc
                rw [List.foldl_cons]
                apply ihn
                rcases hg2 : getCell? acc (n.row : Int) (n.col : Int) with _ | nc
                · exact hacc
                · by_cases hcond : !nc.isRevealed && !nc.isFlagged
                  · simp only [hg2, hcond, if_true]
                    exact ih _ _ _ hacc
                  · simp only [hg2, hcond, if_false]
                    exact hacc
            exact hfold _ _ hb1

/-- The flood fill never changes the board dimensions. -/
theorem sameShape_revealCellFuel (f : Nat) (b : Board) (r c : Int) :
    SameShape b (revealCellFuel f b r c) := by
  induction f generalizing b r c with
  | zero => exact SameShape.refl b
  | succ f ih =>
    unfold revealCellFuel
    rcases hget : getCell? b r c with _ | cell
    · exact SameShape.refl b
    · by_cases hfr : cell.isFlagged || cell.isRevealed
      · simp only [hfr, if_true]
        exact SameShape.refl b
      · simp only [hfr, if_false]
        have hb1 : SameShape b (setRevealed b r.toNat c.toNat) :=
          sameShape_modifyCell b r.toNat c.toNat _
        by_cases hm : cell.isMine
        · simp only [hm, if_true]
          exact hb1
        · simp only [hm, if_false]
          by_cases hn : 0 < cell.neighborMines
          · simp only [hn, if_true]
            exact hb1
          · simp only [hn, if_false]
            have hfold : ∀ (ns : List Cell) (acc : Board), SameShape b acc →
                SameShape b (ns.foldl (fun acc n =>
                  match getCell? acc (n.row : Int) (n.col : Int) with
                  | some nc =>
                    if !nc.isRevealed && !nc.isFlagged then
                      revealCellFuel f acc (n.row : Int) (n.col : Int)
                    else acc
                  | none => acc) acc) := by
              intro ns
              induction ns with
              | nil => exact fun acc hacc => hacc
              | cons n ns ihn =>
                intro acc hacc
                rw [List.foldl_cons]
                apply ihn
                rcases hg2 : getCell? acc (n.row : Int) (n.col : Int) with _ | nc
                · exact hacc
                · by_cases hcond : !nc.isRevealed && !nc.isFlagged
                  · simp only [hg2, hcond, if_true]
                    exact hacc.trans (ih _ _ _)
                  · simp only [hg2, hcond, if_false]
                    exact hacc
            exact hfold _ _ hb1

theorem getCell?_eq_some_iff (b : Board) (r c : Int) (cell : Cell) :
    getCell? b r c = some cell ↔
      InBounds b r c ∧ c.toNat < (b.getD r.toNat []).length ∧
        cell = getCellD b r.toNat c.toNat := by
  unfold getCell?
  by_cases h : InBounds b r c
  · rw [if_pos h]
    constructor
    · intro hsome
      have hlt : c.toNat < (b.getD r.toNat []).length := by
        by_contra hge
        rw [List.getElem?_eq_none (by omega)] at hsome
        exact Option.noConfusion hsome
      refine ⟨h, hlt, ?_⟩
      rw [List.getElem?_eq_getElem hlt] at hsome
      unfold getCellD
      rw [List.getD_eq_getElem _ _ hlt]
      exact (Option.some.injEq .. ▸ hsome).symm
    · rintro ⟨_, hlt, rfl⟩
      rw [List.getElem?_eq_getElem hlt]
      unfold getCellD
      rw [List.getD_eq_getElem _ _ hlt]
  · rw [if_neg h]
    constructor
    · intro hsome
      exact Option.noConfusion hsome
    · rintro ⟨hib, _, _⟩
      exact absurd hib h

/-- C8: revealCell is a no-op when the position is out of bounds or the
target cell is flagged or already revealed, and applying revealCell twice
at the same position gives the same board as applying it once. -/
theorem revealCell_noop_and_idempotent (b : Board) (row col : Int) :
    ((¬ InBounds b row col ∨
      (∃ cell, getCell? b row col = some cell ∧
        (cell.isFlagged = true ∨ cell.isRevealed = true))) →
      revealCell b row col = b)
    ∧ revealCell (revealCell b row col) row col = revealCell b row col := by
  have hnoop : ∀ (f : Nat) (b' : Board),
      getCell? b' row col = none ∨
        (∃ cell, getCell? b' row col = some cell ∧
          (cell.isFlagged = true ∨ cell.isRevealed = true)) →
      revealCellFuel (f + 1) b' row col = b' := by
    intro f b' h
    unfold revealCellFuel
    rcases h with hnone | ⟨cell, hsome, hfr⟩
    · rw [hnone]
    · rw [hsome]
      have : (cell.isFlagged || cell.isRevealed) = true := by
        rcases hfr with h1 | h1 <;> simp [h1]
      simp only [this, if_true]
  constructor
  · intro h
    apply hnoop
    rcases h with hoob | hcell
    · left
      unfold getCell?
      rw [if_neg hoob]
    · right
      exact hcell
  · rcases hget : getCell? b row col with _ | cell
    · have h1 : revealCell b row col = b := hnoop _ b (Or.inl hget)
      rw [h1]
      exact h1
    · by_cases hfr : cell.isFlagged = true ∨ cell.isRevealed = true
      · have h1 : revealCell b row col = b := hnoop _ b (Or.inr ⟨cell, hget, hfr⟩)
        rw [h1]
        exact h1
      · -- the first call actually reveals (row, col); the second is a no-op
        obtain ⟨hib, hlt, hcell⟩ := (getCell?_eq_some_iff b row col cell).1 hget
        set b' := revealCell b row col with hb'
        have hshape : SameShape b b' := sameShape_revealCellFuel _ b row col
        -- after the first call the target cell is revealed
        have hrev : (getCellD b' row.toNat col.toNat).isRevealed = true := by
          rw [hb']
          unfold revealCell revealCellFuel
          rw [hget]
          have hnf : (cell.isFlagged || cell.isRevealed) = false := by
            rcases h1 : cell.isFlagged <;> rcases h2 : cell.isRevealed <;>
              simp [h1, h2] at hfr ⊢
          simp only [hnf, if_false]
          have hset : (getCellD (setRevealed b row.toNat col.toNat)
              row.toNat col.toNat).isRevealed = true := by
            unfold setRevealed
            rw [getCellD_modifyCell]
            have hr : row.toNat < b.length := by
              rcases hib with ⟨h1, h2, _, _⟩
              unfold rowsOf at h2
              omega
            rw [if_pos ⟨rfl, rfl, hr, hlt⟩]
          by_cases hm : cell.isMine
          · simp only [hm, if_true]
            exact hset
          · simp only [hm, if_false]
            by_cases hn : 0 < cell.neighborMines
            · simp only [hn, if_true]
              exact hset
            · simp only [hn, if_false]
              -- the neighbor fold preserves revealed cells
              have hfold : ∀ (ns : List Cell) (acc : Board),
                  (getCellD acc row.toNat col.toNat).isRevealed = true →
                  (getCellD (ns.foldl (fun acc n =>
                    match getCell? acc (n.row : Int) (n.col : Int) with
                    | some nc =>
                      if !nc.isRevealed && !nc.isFlagged then
                        revealCellFuel (rowsOf b * colsOf b) acc (n.row : Int) (n.col : Int)
                      else acc
                    | none => acc) acc) row.toNat col.toNat).isRevealed = true := by
                intro ns
                induction ns with
                | nil => exact fun acc hacc => hacc
                | cons n ns ihn =>
                  intro acc hacc
                  rw [List.foldl_cons]
                  apply ihn
                  rcases hg2 : getCell? acc (n.row : Int) (n.col : Int) with _ | nc
                  · exact hacc
                  · by_cases hcond : !nc.isRevealed && !nc.isFlagged
                    · simp only [hg2, hcond, if_true]
                      exact revealCellFuel_mono _ _ _ _ _ _ hacc
                    · simp only [hg2, hcond, if_false]
                      exact hacc
              exact hfold _ _ hset
        -- hence the second call hits the already-revealed guard
        have hib' : InBounds b' row col := by
          rcases hib with ⟨h1, h2, h3, h4⟩
          exact ⟨h1, by rw [hshape.rowsOf]; exact h2, h3, by rw [hshape.colsOf]; exact h4⟩
        have hlt' : col.toNat < (b'.getD row.toNat []).length := by
          rw [hshape.2 row.toNat]
          exact hlt
        have hget' : getCell? b' row col = some (getCellD b' row.toNat col.toNat) :=
          (getCell?_eq_some_iff b' row col _).2 ⟨hib', hlt', rfl⟩
        have := hnoop (rowsOf b' * colsOf b') b'
          (Or.inr ⟨getCellD b' row.toNat col.toNat, hget', Or.inr hrev⟩)
        exact this

/-- C8 witness: no-op on a concrete flagged cell and idempotence at a
concrete out-of-bounds position, on a 2x2 board with (0,0) flagged. -/
theorem revealCell_noop_witness :
    revealCell (toggleFlag (createBoard 2 2) 0 0) 0 0 = toggleFlag (createBoard 2 2) 0 0 ∧
      revealCell (revealCell (toggleFlag (createBoard 2 2) 0 0) 5 7) 5 7 =
        revealCell (toggleFlag (createBoard 2 2) 0 0) 5 7 :=
  ⟨(revealCell_noop_and_idempotent (toggleFlag (createBoard 2 2) 0 0) 0 0).1
      (Or.inr ⟨getCellD (toggleFlag (createBoard 2 2) 0 0) 0 0, by decide,
        Or.inl (by decide)⟩),
    (revealCell_noop_and_idempotent (toggleFlag (createBoard 2 2) 0 0) 5 7).2⟩

/-! ### Claims C1 and C4: ensureFirstClickSafety -/

/-- A board is rectangular when every row has the width of row 0. -/
abbrev Rect (b : Board) : Prop := ∀ row ∈ b, row.length = colsOf b

theorem getD_mem (b : Board) (r : Nat) (h : r < b.length) : b.getD r [] ∈ b := by
  rw [List.getD_eq_getElem _ _ h]
  exact List.getElem_mem h

theorem Rect.of_sameShape {b b' : Board} (hrect : Rect b) (h : SameShape b b') :
    Rect b' := by
  intro row hrow
  obtain ⟨i, hi, rfl⟩ := List.mem_iff_getElem.1 hrow
  have hib : i < b.length := by
    have := h.1
    omega
  have h1 : b'[i] = b'.getD i [] := (List.getD_eq_getElem _ _ hi).symm
  rw [h1, h.2 i, h.colsOf]
  exact hrect _ (getD_mem b i hib)

theorem getCellD_oob (b : Board) (r c : Nat)
    (h : ¬(r < b.length ∧ c < (b.getD r []).length)) :
    getCellD b r c = defaultCell := by
  unfold getCellD
  by_cases hr : r < b.length
  · have hc : (b.getD r []).length ≤ c := by
      rcases Nat.lt_or_ge c (b.getD r []).length with h1 | h1
      · exact absurd ⟨hr, h1⟩ h
      · exact h1
    exact List.getD_eq_default _ _ hc
  · have h0 : b.getD r [] = [] := List.getD_eq_default _ _ (by omega)
    rw [h0]
    rfl

theorem isMine_clearMine_self (b : Board) (r c : Nat) :
    (getCellD (clearMine b r c) r c).isMine = false := by
  unfold clearMine
  rw [getCellD_modifyCell]
  split
  · rfl
  · next h =>
    rw [getCellD_oob b r c (by tauto)]
    rfl

/-- After the move loop, a cell is a mine exactly when it was a mine
before and is not one of the cleared sources — provided it is never used
as a destination. -/
theorem isMine_moveMines (pairs : List ((Nat × Nat) × (Nat × Nat))) (b : Board)
    (p : Nat × Nat) (hdest : ∀ sd ∈ pairs, sd.2 ≠ p) :
    ((getCellD (moveMines b pairs) p.1 p.2).isMine = true ↔
      (getCellD b p.1 p.2).isMine = true ∧ ∀ sd ∈ pairs, sd.1 ≠ p) := by
  induction pairs generalizing b with
  | nil =>
    unfold moveMines
    simp
  | cons sd rest ih =>
    have hstep : moveMines b (sd :: rest) =
        moveMines (setMine (clearMine b sd.1.1 sd.1.2) sd.2.1 sd.2.2) rest := by
      unfold moveMines
      rw [List.foldl_cons]
    rw [hstep]
    have hdest' : ∀ sd' ∈ rest, sd'.2 ≠ p :=
      fun sd' h => hdest sd' (List.mem_cons_of_mem _ h)
    rw [ih _ hdest']
    have hdp : sd.2 ≠ p := hdest sd (List.mem_cons_self sd rest)
    by_cases hsp : sd.1 = p
    · -- the source is p: it gets cleared, so the result is false
      have hcur : (getCellD (setMine (clearMine b sd.1.1 sd.1.2) sd.2.1 sd.2.2)
          p.1 p.2).isMine = false := by
        unfold setMine
        rw [getCellD_modifyCell_ne _ _ _ _ _ _
          (fun hh => hdp (Prod.ext hh.1 hh.2))]
        rw [← hsp]
        exact isMine_clearMine_self b sd.1.1 sd.1.2
      rw [hcur]
      constructor
      · intro h
        exact absurd h (by simp)
      · rintro ⟨_, hall⟩
        exact absurd hsp (hall sd (List.mem_cons_self sd rest))
    · -- the source is elsewhere: the cell keeps its value through the step
      have hcur : getCellD (setMine (clearMine b sd.1.1 sd.1.2) sd.2.1 sd.2.2) p.1 p.2
          = getCellD b p.1 p.2 := by
        unfold setMine clearMine
        rw [getCellD_modifyCell_ne _ _ _ _ _ _
          (fun hh => hdp (Prod.ext hh.1 hh.2)),
          getCellD_modifyCell_ne _ _ _ _ _ _
          (fun hh => hsp (Prod.ext hh.1 hh.2))]
      rw [hcur]
      constructor
      · rintro ⟨h1, h2⟩
        refine ⟨h1, ?_⟩
        intro sd' hsd'
        rcases List.mem_cons.1 hsd' with rfl | hmem
        · exact hsp
        · exact h2 sd' hmem
      · rintro ⟨h1, h2⟩
        exact ⟨h1, fun sd' h => h2 sd' (List.mem_cons_of_mem _ h)⟩

theorem sameShape_moveMines (pairs : List ((Nat × Nat) × (Nat × Nat))) (b : Board) :
    SameShape b (moveMines b pairs) := by
  induction pairs generalizing b with
  | nil => exact SameShape.refl b
  | cons sd rest ih =>
    have hstep : moveMines b (sd :: rest) =
        moveMines (setMine (clearMine b sd.1.1 sd.1.2) sd.2.1 sd.2.2) rest := by
      unfold moveMines
      rw [List.foldl_cons]
    rw [hstep]
    exact ((sameShape_modifyCell b _ _ _).trans (sameShape_modifyCell _ _ _ _)).trans
      (ih _)

theorem zip_map_fst_sublist {α β : Type} (l₁ : List α) (l₂ : List β) :
    List.Sublist ((l₁.zip l₂).map Prod.fst) l₁ := by
  induction l₁ generalizing l₂ with
  | nil => simp
  | cons x l₁ ih =>
    cases l₂ with
    | nil => simp
    | cons y l₂ =>
      rw [List.zip_cons_cons, List.map_cons]
      exact List.Sublist.cons₂ x (ih l₂)

theorem zip_map_snd_sublist {α β : Type} (l₁ : List α) (l₂ : List β) :
    List.Sublist ((l₁.zip l₂).map Prod.snd) l₂ := by
  induction l₁ generalizing l₂ with
  | nil => simp
  | cons x l₁ ih =>
    cases l₂ with
    | nil => simp
    | cons y l₂ =>
      rw [List.zip_cons_cons, List.map_cons]
      exact List.Sublist.cons₂ y (ih l₂)

/-- The move loop conserves the number of mines: each step clears one
mine (the sources are mines, pairwise distinct, never overwritten) and
sets one on a mine-free cell (the destinations are mine-free, pairwise
distinct, disjoint from the sources). -/
theorem countMines_moveMines (pairs : List ((Nat × Nat) × (Nat × Nat))) :
    ∀ b : Board,
    (∀ sd ∈ pairs, sd.1.1 < b.length ∧ sd.1.2 < (b.getD sd.1.1 []).length ∧
      sd.2.1 < b.length ∧ sd.2.2 < (b.getD sd.2.1 []).length) →
    (∀ sd ∈ pairs, (getCellD b sd.1.1 sd.1.2).isMine = true) →
    (∀ sd ∈ pairs, (getCellD b sd.2.1 sd.2.2).isMine = false) →
    (pairs.map Prod.fst).Nodup →
    (pairs.map Prod.snd).Nodup →
    (∀ sd ∈ pairs, ∀ sd' ∈ pairs, sd.1 ≠ sd'.2) →
    countB (fun x => x.isMine) (moveMines b pairs) = countB (fun x => x.isMine) b := by
  induction pairs with
  | nil =>
    intro b _ _ _ _ _ _
    rfl
  | cons sd rest ih =>
    intro b hbounds hsrc hdst hnf hns hcross
    have hstep : moveMines b (sd :: rest) =
        moveMines (setMine (clearMine b sd.1.1 sd.1.2) sd.2.1 sd.2.2) rest := by
      unfold moveMines
      rw [List.foldl_cons]
    rw [hstep]
    have hmemself := List.mem_cons_self sd rest
    obtain ⟨hs1, hs2, hd1, hd2⟩ := hbounds sd hmemself
    have hsd_ne : sd.1 ≠ sd.2 := hcross sd hmemself sd hmemself
    set b1 := clearMine b sd.1.1 sd.1.2 with hb1
    have hshape1 : SameShape b b1 := sameShape_modifyCell b _ _ _
    set b2 := setMine b1 sd.2.1 sd.2.2 with hb2
    have hshape2 : SameShape b b2 := hshape1.trans (sameShape_modifyCell b1 _ _ _)
    -- the count is unchanged by the single move
    have hd1' : sd.2.1 < b1.length := by
      have := hshape1.1
      omega
    have hd2' : sd.2.2 < (b1.getD sd.2.1 []).length := by
      rw [hshape1.2]
      exact hd2
    have hdval : getCellD b1 sd.2.1 sd.2.2 = getCellD b sd.2.1 sd.2.2 := by
      rw [hb1]
      unfold clearMine
      exact getCellD_modifyCell_ne _ _ _ _ _ _
        (fun hh => hsd_ne (Prod.ext hh.1 hh.2))
    have hcount1 : (countB (fun x => x.isMine) b1 : Int)
        = countB (fun x => x.isMine) b - 1 := by
      rw [hb1]
      unfold clearMine
      rw [countB_modifyCell b _ _ _ _ hs1 hs2]
      rw [hsrc sd hmemself]
      simp
    have hcount2 : (countB (fun x => x.isMine) b2 : Int)
        = countB (fun x => x.isMine) b1 + 1 := by
      rw [hb2]
      unfold setMine
      rw [countB_modifyCell b1 _ _ _ _ hd1' hd2']
      rw [hdval, hdst sd hmemself]
      simp
    -- transported hypotheses for the remaining pairs
    have hbounds' : ∀ sd' ∈ rest, sd'.1.1 < b2.length ∧
        sd'.1.2 < (b2.getD sd'.1.1 []).length ∧
        sd'.2.1 < b2.length ∧ sd'.2.2 < (b2.getD sd'.2.1 []).length := by
      intro sd' h
      obtain ⟨u1, u2, u3, u4⟩ := hbounds sd' (List.mem_cons_of_mem _ h)
      refine ⟨?_, ?_, ?_, ?_⟩ <;> (first
        | (have h9 := hshape2.1; omega)
        | (rw [hshape2.2]; assumption))
    have huntouched : ∀ q : Nat × Nat, q ≠ sd.1 → q ≠ sd.2 →
        getCellD b2 q.1 q.2 = getCellD b q.1 q.2 := by
      intro q hq1 hq2
      rw [hb2]
      unfold setMine
      rw [getCellD_modifyCell_ne _ _ _ _ _ _
        (fun hh => hq2 (Prod.ext hh.1.symm hh.2.symm))]
      rw [hb1]
      unfold clearMine
      rw [getCellD_modifyCell_ne _ _ _ _ _ _
        (fun hh => hq1 (Prod.ext hh.1.symm hh.2.symm))]
    have hsrc' : ∀ sd' ∈ rest, (getCellD b2 sd'.1.1 sd'.1.2).isMine = true := by
      intro sd' h
      have hne1 : sd'.1 ≠ sd.1 := by
        intro hh
        have : sd.1 ∈ List.map Prod.fst rest := hh ▸ List.mem_map_of_mem Prod.fst h
        rw [List.map_cons] at hnf
        exact (List.nodup_cons.1 hnf).1 this
      have hne2 : sd'.1 ≠ sd.2 :=
        hcross sd' (List.mem_cons_of_mem _ h) sd hmemself
      rw [huntouched sd'.1 hne1 hne2]
      exact hsrc sd' (List.mem_cons_of_mem _ h)
    have hdst' : ∀ sd' ∈ rest, (getCellD b2 sd'.2.1 sd'.2.2).isMine = false := by
      intro sd' h
      have hne2 : sd'.2 ≠ sd.2 := by
        intro hh
        have : sd.2 ∈ List.map Prod.snd rest := hh ▸ List.mem_map_of_mem Prod.snd h
        rw [List.map_cons] at hns
        exact (List.nodup_cons.1 hns).1 this
      have hne1 : sd'.2 ≠ sd.1 := by
        intro hh
        exact hcross sd hmemself sd' (List.mem_cons_of_mem _ h) hh.symm
      rw [huntouched sd'.2 hne1 hne2]
      exact hdst sd' (List.mem_cons_of_mem _ h)
    have hnf' : (rest.map Prod.fst).Nodup := by
      rw [List.map_cons] at hnf
      exact (List.nodup_cons.1 hnf).2
    have hns' : (rest.map Prod.snd).Nodup := by
      rw [List.map_cons] at hns
      exact (List.nodup_cons.1 hns).2
    have hcross' : ∀ sd' ∈ rest, ∀ sd'' ∈ rest, sd'.1 ≠ sd''.2 :=
      fun a ha c hc => hcross a (List.mem_cons_of_mem _ ha) c (List.mem_cons_of_mem _ hc)
    have := ih b2 hbounds' hsrc' hdst' hnf' hns' hcross'
    omega

theorem countMines_calculateNumbers (b : Board) (hrect : Rect b) :
    countB (fun x => x.isMine) (calculateNumbers b)
      = countB (fun x => x.isMine) b := by
  have hrect' : ∀ row ∈ calculateNumbers b, row.length = colsOf b := by
    intro row hrow
    unfold calculateNumbers at hrow
    obtain ⟨r, _, rfl⟩ := List.mem_map.1 hrow
    simp
  rw [countB_eq_scan _ (calculateNumbers b) (rowsOf b) (colsOf b)
      (rowsOf_calculateNumbers b) hrect',
    countB_eq_scan _ b (rowsOf b) (colsOf b) rfl hrect]
  apply congrArg List.length
  apply List.filter_congr
  intro q hq
  obtain ⟨h1, h2⟩ := (mem_cellsRowMajor _ _ q).1 hq
  rw [isMine_calculateNumbers b q.1 q.2 h1 h2]

theorem mem_unsafeCellsFor (b : Board) (fr fc : Int) (p : Nat × Nat) :
    p ∈ unsafeCellsFor b fr fc ↔
      ∃ d ∈ scanOffsets, InBounds b (fr + d.1) (fc + d.2) ∧
        p = ((fr + d.1).toNat, (fc + d.2).toNat) := by
  unfold unsafeCellsFor
  rw [List.mem_filterMap]
  constructor
  · rintro ⟨d, hd, hsome⟩
    by_cases hib : InBounds b (fr + d.1) (fc + d.2)
    · rw [if_pos hib] at hsome
      exact ⟨d, hd, hib, (Option.some.injEq .. ▸ hsome).symm⟩
    · rw [if_neg hib] at hsome
      exact Option.noConfusion hsome
  · rintro ⟨d, hd, hib, rfl⟩
    exact ⟨d, hd, by rw [if_pos hib]⟩

theorem mem_minesInUnsafeArea (b : Board) (fr fc : Int) (p : Nat × Nat) :
    p ∈ minesInUnsafeArea b fr fc ↔
      p.1 < rowsOf b ∧ p.2 < colsOf b ∧ (getCellD b p.1 p.2).isMine = true ∧
        p ∈ unsafeCellsFor b fr fc := by
  unfold minesInUnsafeArea
  rw [List.mem_filter, mem_cellsRowMajor]
  constructor
  · rintro ⟨⟨h1, h2⟩, h3⟩
    rw [Bool.and_eq_true] at h3
    exact ⟨h1, h2, h3.1, (contains_iff_mem_pairs _ _).1 h3.2⟩
  · rintro ⟨h1, h2, h3, h4⟩
    refine ⟨⟨h1, h2⟩, ?_⟩
    rw [Bool.and_eq_true]
    exact ⟨h3, (contains_iff_mem_pairs _ _).2 h4⟩

theorem mem_safeCellsWithoutMines (b : Board) (fr fc : Int) (p : Nat × Nat) :
    p ∈ safeCellsWithoutMines b fr fc ↔
      p.1 < rowsOf b ∧ p.2 < colsOf b ∧ (getCellD b p.1 p.2).isMine = false ∧
        p ∉ unsafeCellsFor b fr fc := by
  unfold safeCellsWithoutMines
  rw [List.mem_filter, mem_cellsRowMajor]
  constructor
  · rintro ⟨⟨h1, h2⟩, h3⟩
    rw [Bool.and_eq_true, Bool.not_eq_true', Bool.not_eq_true'] at h3
    refine ⟨h1, h2, h3.1, ?_⟩
    intro hmem
    rw [(contains_iff_mem_pairs _ _).2 hmem] at h3
    exact Bool.noConfusion h3.2
  · rintro ⟨h1, h2, h3, h4⟩
    refine ⟨⟨h1, h2⟩, ?_⟩
    rw [Bool.and_eq_true, Bool.not_eq_true', Bool.not_eq_true']
    refine ⟨h3, ?_⟩
    rcases hcon : (unsafeCellsFor b fr fc).contains p
    · rfl
    · exact absurd ((contains_iff_mem_pairs _ _).1 hcon) h4

theorem nodup_minesInUnsafeArea (b : Board) (fr fc : Int) :
    (minesInUnsafeArea b fr fc).Nodup :=
  (nodup_cellsRowMajor _ _).filter _

theorem nodup_safeCellsWithoutMines (b : Board) (fr fc : Int) :
    (safeCellsWithoutMines b fr fc).Nodup :=
  (nodup_cellsRowMajor _ _).filter _

/-- For a rectangular board with an in-bounds click, the initial
board[firstClickRow][firstClickCol] access succeeds. -/
theorem getCell?_of_rect (b : Board) (r c : Int) (hrect : Rect b)
    (hib : InBounds b r c) :
    getCell? b r c = some (getCellD b r.toNat c.toNat) := by
  apply (getCell?_eq_some_iff b r c _).2
  refine ⟨hib, ?_, rfl⟩
  obtain ⟨h1, h2, h3, h4⟩ := hib
  have hr : r.toNat < b.length := by
    unfold rowsOf at h2
    omega
  rw [hrect _ (getD_mem b r.toNat hr)]
  omega

/-- The two mutually exclusive result forms of ensureFirstClickSafety on
a successful access: either the click was already safe and the board is
returned as is, or the relocation runs. -/
theorem ensureFirstClickSafety_eq (b : Board) (fr fc : Int) (cell : Cell)
    (hget : getCell? b fr fc = some cell) :
    ensureFirstClickSafety b fr fc =
      (if !cell.isMine && !neighborhoodHasMine b fr fc then some b
       else some (calculateNumbers
        (moveMines b ((minesInUnsafeArea b fr fc).zip (safeCellsWithoutMines b fr fc))))) := by
  unfold ensureFirstClickSafety
  rw [hget]

/-- C1 counterexample board: a 1x1 board whose only cell is a mine. -/
def fullMineBoard1 : Board := setMine (createBoard 1 1) 0 0

/-- C1 counterexample: the claim promises an unconditionally mine-free
clicked neighborhood, but when the safe destinations run out the excess
mines stay: on the 1x1 all-mine board there is no cell outside the unsafe
area, so the clicked cell itself is still a mine after the call. -/
theorem ensureFirstClickSafety_not_unconditional :
    (ensureFirstClickSafety fullMineBoard1 0 0).map
        (fun b => (getCellD b 0 0).isMine) = some true := by
  decide

/-- C1 amended: for a rectangular board and in-bounds click, whenever the
number of mines in the clipped 3x3 unsafe area is at most the number of
mine-free cells outside it (so the relocation can clear every unsafe
mine), the call succeeds and afterwards the clicked cell and all its
in-bounds neighbors are mine-free. -/
theorem ensureFirstClickSafety_clears_neighborhood (b : Board) (fr fc : Int)
    (hrect : Rect b) (hib : InBounds b fr fc)
    (hcap : (minesInUnsafeArea b fr fc).length ≤ (safeCellsWithoutMines b fr fc).length) :
    ∃ b', ensureFirstClickSafety b fr fc = some b' ∧
      ∀ d ∈ scanOffsets, InBounds b (fr + d.1) (fc + d.2) →
        (getCellD b' (fr + d.1).toNat (fc + d.2).toNat).isMine = false := by
  have hget := getCell?_of_rect b fr fc hrect hib
  rw [ensureFirstClickSafety_eq b fr fc _ hget]
  by_cases hsafe : (!(getCellD b fr.toNat fc.toNat).isMine && !neighborhoodHasMine b fr fc) = true
  · rw [if_pos hsafe]
    refine ⟨b, rfl, ?_⟩
    intro d hd hib'
    rw [Bool.and_eq_true, Bool.not_eq_true', Bool.not_eq_true'] at hsafe
    have hnone := hsafe.2
    unfold neighborhoodHasMine at hnone
    rw [List.any_eq_false] at hnone
    have := hnone d hd
    rw [getCell?_of_rect b _ _ hrect hib'] at this
    simpa using this
  · rw [if_neg hsafe]
    set pairs := (minesInUnsafeArea b fr fc).zip (safeCellsWithoutMines b fr fc) with hpairs
    refine ⟨_, rfl, ?_⟩
    intro d hd hib'
    set p : Nat × Nat := ((fr + d.1).toNat, (fc + d.2).toNat) with hp
    have hpb1 : p.1 < rowsOf b := by
      obtain ⟨u1, u2, _, _⟩ := hib'
      simp only [hp]
      omega
    have hpb2 : p.2 < colsOf b := by
      obtain ⟨_, _, u3, u4⟩ := hib'
      simp only [hp]
      omega
    have hpunsafe : p ∈ unsafeCellsFor b fr fc :=
      (mem_unsafeCellsFor b fr fc p).2 ⟨d, hd, hib', rfl⟩
    have hshape : SameShape b (moveMines b pairs) := sameShape_moveMines pairs b
    -- transport position through calculateNumbers
    have hpb1' : p.1 < rowsOf (moveMines b pairs) := by
      rw [hshape.rowsOf]
      exact hpb1
    have hpb2' : p.2 < colsOf (moveMines b pairs) := by
      rw [hshape.colsOf]
      exact hpb2
    rw [isMine_calculateNumbers _ p.1 p.2 hpb1' hpb2']
    -- destinations are all outside the unsafe area, hence never p
    have hdest : ∀ sd ∈ pairs, sd.2 ≠ p := by
      intro sd hsd
      have hsnd : sd.2 ∈ safeCellsWithoutMines b fr fc := (List.of_mem_zip hsd).2
      have := ((mem_safeCellsWithoutMines b fr fc sd.2).1 hsnd).2.2.2
      intro hh
      exact this (hh ▸ hpunsafe)
    rw [Bool.eq_false_iff]
    intro hmine
    obtain ⟨horig, hnosrc⟩ := (isMine_moveMines pairs b p hdest).1 hmine
    -- p was a mine in the unsafe area, so it is one of the sources
    have hpmem : p ∈ minesInUnsafeArea b fr fc :=
      (mem_minesInUnsafeArea b fr fc p).2 ⟨hpb1, hpb2, horig, hpunsafe⟩
    have hfst : pairs.map Prod.fst = minesInUnsafeArea b fr fc := by
      rw [hpairs]
      exact List.map_fst_zip _ _ hcap
    rw [← hfst] at hpmem
    obtain ⟨sd, hsd, hsdp⟩ := List.mem_map.1 hpmem
    exact hnosrc sd hsd hsdp

/-- C1 witness: a 3x3 board with its single mine at the clicked corner
(0, 0); the capacity hypothesis holds (1 unsafe mine, 5 safe cells) and
the clicked cell is mine-free after the call. -/
theorem ensureFirstClickSafety_clears_witness :
    ∃ b', ensureFirstClickSafety (setMine (createBoard 3 3) 0 0) 0 0 = some b' ∧
      (getCellD b' 0 0).isMine = false := by
  obtain ⟨b', h1, h2⟩ := ensureFirstClickSafety_clears_neighborhood
    (setMine (createBoard 3 3) 0 0) 0 0 (by decide) (by decide) (by decide)
  exact ⟨b', h1, h2 (0, 0) (by decide) (by decide)⟩

/-- C4: for a rectangular board and any in-bounds click position,
ensureFirstClickSafety succeeds and conserves the total number of mines
(mines are only moved, never created or destroyed). -/
theorem ensureFirstClickSafety_conserves_mines (b : Board) (fr fc : Int)
    (hrect : Rect b) (hib : InBounds b fr fc) :
    ∃ b', ensureFirstClickSafety b fr fc = some b' ∧
      countB (fun x => x.isMine) b' = countB (fun x => x.isMine) b := by
  have hget := getCell?_of_rect b fr fc hrect hib
  rw [ensureFirstClickSafety_eq b fr fc _ hget]
  by_cases hsafe : (!(getCellD b fr.toNat fc.toNat).isMine && !neighborhoodHasMine b fr fc) = true
  · rw [if_pos hsafe]
    exact ⟨b, rfl, rfl⟩
  · rw [if_neg hsafe]
    set pairs := (minesInUnsafeArea b fr fc).zip (safeCellsWithoutMines b fr fc) with hpairs
    refine ⟨_, rfl, ?_⟩
    have hshape : SameShape b (moveMines b pairs) := sameShape_moveMines pairs b
    rw [countMines_calculateNumbers _ (hrect.of_sameShape hshape)]
    apply countMines_moveMines
    · intro sd hsd
      have hf := (List.of_mem_zip hsd).1
      have hs := (List.of_mem_zip hsd).2
      obtain ⟨f1, f2, _, _⟩ := (mem_minesInUnsafeArea b fr fc sd.1).1 hf
      obtain ⟨s1, s2, _, _⟩ := (mem_safeCellsWithoutMines b fr fc sd.2).1 hs
      have hrow1 : (b.getD sd.1.1 []).length = colsOf b :=
        hrect _ (getD_mem b sd.1.1 f1)
      have hrow2 : (b.getD sd.2.1 []).length = colsOf b :=
        hrect _ (getD_mem b sd.2.1 s1)
      exact ⟨f1, by omega, s1, by omega⟩
    · intro sd hsd
      exact ((mem_minesInUnsafeArea b fr fc sd.1).1 (List.of_mem_zip hsd).1).2.2.1
    · intro sd hsd
      exact ((mem_safeCellsWithoutMines b fr fc sd.2).1 (List.of_mem_zip hsd).2).2.2.1
    · exact (zip_map_fst_sublist _ _).nodup (nodup_minesInUnsafeArea b fr fc)
    · exact (zip_map_snd_sublist _ _).nodup (nodup_safeCellsWithoutMines b fr fc)
    · intro sd hsd sd' hsd'
      have hf := ((mem_minesInUnsafeArea b fr fc sd.1).1 (List.of_mem_zip hsd).1).2.2.2
      have hs := ((mem_safeCellsWithoutMines b fr fc sd'.2).1 (List.of_mem_zip hsd').2).2.2.2
      intro hh
      exact hs (hh ▸ hf)

/-- C4 witness: on the 3x3 board with one mine at the clicked corner the
call succeeds and the result still has exactly one mine. -/
theorem ensureFirstClickSafety_conserves_witness :
    ∃ b', ensureFirstClickSafety (setMine (createBoard 3 3) 0 0) 0 0 = some b' ∧
      countB (fun x => x.isMine) b' = 1 := by
  obtain ⟨b', h1, h2⟩ := ensureFirstClickSafety_conserves_mines
    (setMine (createBoard 3 3) 0 0) 0 0 (by decide) (by decide)
  refine ⟨b', h1, ?_⟩
  rw [h2]
  decide

/-! ### Claim C3: generateBoard -/

theorem UINT32_eq : UINT32 = 2 ^ 32 := rfl

theorem mulberry32_out_lt (s : Nat) : (mulberry32 s).2 < UINT32 := by
  unfold mulberry32
  simp only
  set su := (s + 0x6D2B79F5) % UINT32 with hsu
  set t1 := imul (Nat.xor su (su >>> 15)) (su ||| 1) with ht1
  have h1 : t1 < UINT32 := Nat.mod_lt _ (by norm_num [UINT32])
  have h2 : (t1 + imul (Nat.xor t1 (t1 >>> 7)) (t1 ||| 61)) % UINT32 < UINT32 :=
    Nat.mod_lt _ (by norm_num [UINT32])
  have h3 : Nat.xor t1 ((t1 + imul (Nat.xor t1 (t1 >>> 7)) (t1 ||| 61)) % UINT32) < UINT32 := by
    rw [UINT32_eq] at h1 h2 ⊢
    exact Nat.xor_lt_two_pow h1 h2
  have h4 : Nat.xor t1 ((t1 + imul (Nat.xor t1 (t1 >>> 7)) (t1 ||| 61)) % UINT32) >>> 14
      ≤ Nat.xor t1 ((t1 + imul (Nat.xor t1 (t1 >>> 7)) (t1 ||| 61)) % UINT32) := by
    rw [Nat.shiftRight_eq_div_pow]
    exact Nat.div_le_self _ _
  rw [UINT32_eq] at h3 ⊢
  exact Nat.xor_lt_two_pow h3 (by omega)

theorem drawIndex_lt (k n : Nat) (hk : k < UINT32) (hn : 0 < n) :
    drawIndex k n < n := by
  unfold drawIndex
  rw [Nat.div_lt_iff_lt_mul (by norm_num [UINT32])]
  calc k * n < UINT32 * n := (Nat.mul_lt_mul_right hn).2 hk
    _ = n * UINT32 := Nat.mul_comm _ _

theorem drawIndex_pow33 (k : Nat) : drawIndex k (2 ^ 33) = 2 * k := by
  unfold drawIndex
  rw [UINT32_eq]
  have h : k * 2 ^ 33 = 2 * k * 2 ^ 32 := by ring
  rw [h, Nat.mul_div_cancel _ (by norm_num)]

theorem drawIndex_one (k : Nat) (hk : k < UINT32) : drawIndex k 1 = 0 := by
  unfold drawIndex
  rw [Nat.mul_one]
  exact Nat.div_eq_of_lt hk

/-- A list of naturals of length 2*m whose odd entries vanish and whose
entries are at most 1 sums to at most m. -/
theorem sum_le_of_odd_zero : ∀ (m : Nat) (L : List Nat), L.length = 2 * m →
    (∀ i, i % 2 = 1 → L.getD i 0 = 0) → (∀ i, L.getD i 0 ≤ 1) → L.sum ≤ m := by
  intro m
  induction m with
  | zero =>
    intro L hlen _ _
    have : L = [] := List.eq_nil_of_length_eq_zero (by omega)
    rw [this]
    exact Nat.le_refl 0
  | succ m ih =>
    intro L hlen hodd hle
    match L, hlen with
    | a :: d :: L, hlen =>
      have ha : a ≤ 1 := hle 0
      have hd : d = 0 := hodd 1 rfl
      have hrec : L.sum ≤ m := by
        apply ih L (by simpa [Nat.mul_succ] using hlen)
        · intro i hi
          have := hodd (i + 2) (by omega)
          exact this
        · intro i
          exact hle (i + 2)
      simp only [List.sum_cons]
      omega

theorem countP_getD_map (b : Board) (p : Cell → Bool) (i : Nat) :
    (b.map (fun row => row.countP p)).getD i 0
      = if i < b.length then (b.getD i []).countP p else 0 := by
  rcases Nat.lt_or_ge i b.length with h | h
  · rw [if_pos h, List.getD_eq_getElem _ _ (by simpa using h), List.getElem_map,
      List.getD_eq_getElem _ _ h]
  · rw [if_neg (by omega), List.getD_eq_default _ _ (by simpa using h)]

theorem rows_createBoard_len (R C : Nat) :
    ∀ row ∈ createBoard R C, row.length = C := by
  intro row hrow
  unfold createBoard at hrow
  obtain ⟨r, _, rfl⟩ := List.mem_map.1 hrow
  simp

theorem countMines_createBoard (R C : Nat) :
    countB (fun x => x.isMine) (createBoard R C) = 0 := by
  unfold countB
  apply List.sum_eq_zero
  intro x hx
  obtain ⟨row, hrow, rfl⟩ := List.mem_map.1 hx
  unfold createBoard at hrow
  obtain ⟨r, _, rfl⟩ := List.mem_map.1 hrow
  rw [List.countP_eq_length_filter, List.length_eq_zero, List.filter_eq_nil_iff]
  intro cell hcell
  obtain ⟨c, _, rfl⟩ := List.mem_map.1 hcell
  simp

theorem isMine_createBoard (R C r c : Nat) :
    (getCellD (createBoard R C) r c).isMine = false := by
  by_cases hr : r < R
  · by_cases hc : c < C
    · rw [getCellD_createBoard R C r c hr hc]
    · rw [getCellD_oob]
      · rfl
      · rintro ⟨h1, h2⟩
        have : ((createBoard R C).getD r []).length = C :=
          rows_createBoard_len R C _ (getD_mem _ r h1)
        omega
  · rw [getCellD_oob]
    · rfl
    · rintro ⟨h1, _⟩
      have : (createBoard R C).length = R := length_gridBoard R C _
      omega

/-- On a 2^33-row one-column board whose mines all sit at even row
indices, at most 2^32 cells are mines. -/
theorem countB_le_of_odd_clear (b : Board)
    (hlen : b.length = 2 ^ 33) (hrows : ∀ row ∈ b, row.length = 1)
    (hodd : ∀ i, i % 2 = 1 → (getCellD b i 0).isMine = false) :
    countB (fun x => x.isMine) b ≤ 2 ^ 32 := by
  unfold countB
  apply sum_le_of_odd_zero (2 ^ 32)
  · rw [List.length_map, hlen]
    norm_num
  · intro i hi
    rw [countP_getD_map]
    split
    · next h =>
      have hrow : (b.getD i []).length = 1 := hrows _ (getD_mem b i h)
      obtain ⟨x, hx⟩ := List.length_eq_one.1 hrow
      have hcell : getCellD b i 0 = x := by
        unfold getCellD
        rw [hx]
        rfl
      rw [hx, List.countP_cons, List.countP_nil]
      have hxm := hodd i hi
      rw [hcell] at hxm
      simp [hxm]
    · rfl
  · intro i
    rw [countP_getD_map]
    split
    · next h =>
      calc (b.getD i []).countP _ ≤ (b.getD i []).length := List.countP_le_length _
        _ = 1 := hrows _ (getD_mem b i h)
    · omega

/-- The placement loop on a 2^33 x 1 board asked for 2^32 + 1 mines never
finishes, whatever the fuel: every draw lands on an even row (the 32-bit
output k yields row = floor(k * 2^33 / 2^32) = 2k), so at most 2^32 cells
are ever reachable and the placed counter cannot reach 2^32 + 1. -/
theorem placeMinesLoop_pow33_none : ∀ (fuel state placed : Nat) (b : Board),
    b.length = 2 ^ 33 → (∀ row ∈ b, row.length = 1) →
    countB (fun x => x.isMine) b = placed →
    (∀ i, i % 2 = 1 → (getCellD b i 0).isMine = false) →
    placeMinesLoop (2 ^ 33) 1 (2 ^ 32 + 1) fuel state b placed = none := by
  intro fuel
  induction fuel with
  | zero =>
    intro state placed b _ _ _ _
    rfl
  | succ fuel ih =>
    intro state placed b hlen hrows hcount hodd
    have hbound : placed ≤ 2 ^ 32 := hcount ▸ countB_le_of_odd_clear b hlen hrows hodd
    have hlt : placed < 2 ^ 32 + 1 := by omega
    have hk1lt : (mulberry32 state).2 < UINT32 := mulberry32_out_lt state
    have hk2lt : (mulberry32 (mulberry32 state).1).2 < UINT32 :=
      mulberry32_out_lt _
    show placeMinesLoop (2 ^ 33) 1 (2 ^ 32 + 1) (fuel + 1) state b placed = none
    unfold placeMinesLoop
    simp only
    rw [if_pos hlt, drawIndex_pow33, drawIndex_one _ hk2lt]
    set k1 := (mulberry32 state).2 with hk1
    by_cases hm : (getCellD b (2 * k1) 0).isMine
    · rw [if_pos hm]
      exact ih _ _ b hlen hrows hcount hodd
    · rw [if_neg hm]
      apply ih
      · unfold setMine
        rw [length_modifyCell, hlen]
      · intro row hrow
        have hshape : SameShape b (setMine b (2 * k1) 0) := sameShape_modifyCell b _ _ _
        obtain ⟨i, hi, rfl⟩ := List.mem_iff_getElem.1 hrow
        have hib : i < b.length := by
          have := hshape.1
          omega
        have h1 : (setMine b (2 * k1) 0)[i] = (setMine b (2 * k1) 0).getD i [] :=
          (List.getD_eq_getElem _ _ hi).symm
        rw [h1, hshape.2 i]
        exact hrows _ (getD_mem b i hib)
      · have hr : 2 * k1 < b.length := by
          rw [hlen, UINT32_eq] at *
          omega
        have hc : 0 < (b.getD (2 * k1) []).length := by
          rw [hrows _ (getD_mem b _ hr)]
          omega
        have := countB_modifyCell b (2 * k1) 0 (fun x => { x with isMine := true })
          (fun x => x.isMine) hr hc
        unfold setMine
        rw [Bool.not_eq_true] at hm
        simp only [hm] at this
        norm_num at this
        omega
      · intro i hi
        unfold setMine
        rw [getCellD_modifyCell_ne]
        · exact hodd i hi
        · rintro ⟨h1, _⟩
          omega

/-- C3 counterexample: with rows = 2^33, cols = 1, mineCount = 2^32 + 1
the precondition mineCount < rows*cols holds, yet generateBoard never
terminates (no amount of fuel makes the placement loop finish): every
drawn row index floor(k/2^32 * 2^33) = 2k is even — exactly as the
JavaScript float arithmetic computes it — so only 2^32 cells are
reachable and 2^32 + 1 mines can never be placed. -/
theorem generateBoard_termination_claim_false :
    (2 ^ 32 + 1 : Nat) < 2 ^ 33 * 1 ∧
      ¬ ∃ (fuel : Nat) (b : Board),
          generateBoard (2 ^ 33) 1 (2 ^ 32 + 1) [] fuel = some b := by
  constructor
  · norm_num
  · rintro ⟨fuel, b, hb⟩
    have hnone : generateBoard (2 ^ 33) 1 (2 ^ 32 + 1) [] fuel = none := by
      unfold generateBoard
      apply placeMinesLoop_pow33_none
      · exact length_gridBoard _ _ _
      · exact rows_createBoard_len _ _
      · exact countMines_createBoard _ _
      · intro i _
        exact isMine_createBoard _ _ _ _
    rw [hnone] at hb
    exact Option.noConfusion hb

/-- The placement loop, when it does finish, returns a rows x cols board
with exactly the requested number of mines. -/
theorem placeMinesLoop_some (rows cols mines : Nat) (h1 : 0 < rows) (h2 : 0 < cols) :
    ∀ (fuel state placed : Nat) (board b : Board),
    board.length = rows → (∀ row ∈ board, row.length = cols) →
    countB (fun x => x.isMine) board = placed → placed ≤ mines →
    placeMinesLoop rows cols mines fuel state board placed = some b →
    b.length = rows ∧ (∀ row ∈ b, row.length = cols) ∧
      countB (fun x => x.isMine) b = mines := by
  intro fuel
  induction fuel with
  | zero =>
    intro state placed board b _ _ _ _ h
    exact Option.noConfusion h
  | succ fuel ih =>
    intro state placed board b hlen hrows hcount hple hloop
    rw [show placeMinesLoop rows cols mines (fuel + 1) state board placed
        = (if placed < mines then
            if (getCellD board (drawIndex (mulberry32 state).2 rows)
                (drawIndex (mulberry32 (mulberry32 state).1).2 cols)).isMine then
              placeMinesLoop rows cols mines fuel (mulberry32 (mulberry32 state).1).1
                board placed
            else
              placeMinesLoop rows cols mines fuel (mulberry32 (mulberry32 state).1).1
                (setMine board (drawIndex (mulberry32 state).2 rows)
                  (drawIndex (mulberry32 (mulberry32 state).1).2 cols)) (placed + 1)
          else some board) from rfl] at hloop
    by_cases hplt : placed < mines
    · rw [if_pos hplt] at hloop
      set row := drawIndex (mulberry32 state).2 rows with hrowdef
      set col := drawIndex (mulberry32 (mulberry32 state).1).2 cols with hcoldef
      have hrlt : row < rows := drawIndex_lt _ _ (mulberry32_out_lt _) h1
      have hclt : col < cols := drawIndex_lt _ _ (mulberry32_out_lt _) h2
      by_cases hm : (getCellD board row col).isMine
      · rw [if_pos hm] at hloop
        exact ih _ _ board b hlen hrows hcount hple hloop
      · rw [if_neg hm] at hloop
        have hshape : SameShape board (setMine board row col) := sameShape_modifyCell _ _ _ _
        apply ih _ _ (setMine board row col) b _ _ _ _ hloop
        · rw [hshape.1, hlen]
        · intro r hr
          obtain ⟨i, hi, rfl⟩ := List.mem_iff_getElem.1 hr
          have hib : i < board.length := by
            have := hshape.1
            omega
          have hq : (setMine board row col)[i] = (setMine board row col).getD i [] :=
            (List.getD_eq_getElem _ _ hi).symm
          rw [hq, hshape.2 i]
          exact hrows _ (getD_mem board i hib)
        · have hr : row < board.length := by omega
          have hc : col < (board.getD row []).length := by
            rw [hrows _ (getD_mem board _ hr)]
            omega
          have := countB_modifyCell board row col (fun x => { x with isMine := true })
            (fun x => x.isMine) hr hc
          unfold setMine
          rw [Bool.not_eq_true] at hm
          simp only [hm] at this
          norm_num at this
          omega
        · omega
    · rw [if_neg hplt] at hloop
      have hbb : board = b := Option.some.injEq .. ▸ hloop
      subst hbb
      exact ⟨hlen, hrows, by omega⟩

/-- C3 amended: for positive dimensions, whenever the placement loop
completes (some fuel suffices), generateBoard returns a rows x cols board
with exactly mineCount mines; termination itself is not guaranteed for
all mineCount < rows*cols (see the counterexample). -/
theorem generateBoard_places_exact (rows cols mines : Nat) (seed : List Nat)
    (fuel : Nat) (b : Board) (h1 : 0 < rows) (h2 : 0 < cols)
    (hgen : generateBoard rows cols mines seed fuel = some b) :
    b.length = rows ∧ (∀ row ∈ b, row.length = cols) ∧
      countB (fun x => x.isMine) b = mines :=
  placeMinesLoop_some rows cols mines h1 h2 fuel (seedState seed) 0
    (createBoard rows cols) b (length_gridBoard _ _ _) (rows_createBoard_len _ _)
    (countMines_createBoard _ _) (Nat.zero_le _) hgen

/-- C3 witness: generateBoard 2 2 1 (seed "a") finishes within 3 loop
iterations and places exactly one mine on the 2 x 2 board. -/
theorem generateBoard_places_exact_witness :
    ∃ b, generateBoard 2 2 1 [97] 3 = some b ∧ b.length = 2 ∧
      (∀ row ∈ b, row.length = 2) ∧ countB (fun x => x.isMine) b = 1 := by
  cases hg : generateBoard 2 2 1 [97] 3 with
  | none => exact absurd hg (by decide)
  | some b =>
    exact ⟨b, rfl, generateBoard_places_exact 2 2 1 [97] 3 b (by decide) (by decide) hg⟩

/-! ### Claims C9 and C10: game session state -/

theorem rows_len_of_sameShape {b b' : Board} (C : Nat) (hs : SameShape b b')
    (h : ∀ row ∈ b, row.length = C) : ∀ row ∈ b', row.length = C := by
  intro row hrow
  obtain ⟨i, hi, rfl⟩ := List.mem_iff_getElem.1 hrow
  have hib : i < b.length := by
    have := hs.1
    omega
  have h1 : b'[i] = b'.getD i [] := (List.getD_eq_getElem _ _ hi).symm
  rw [h1, hs.2 i]
  exact h _ (getD_mem b i hib)

/-- A cell update that does not affect p leaves the p-count unchanged,
in or out of bounds. -/
theorem countB_modifyCell_of_pres (b : Board) (r c : Nat) (f : Cell → Cell)
    (p : Cell → Bool) (hpres : ∀ x, p (f x) = p x) :
    countB p (modifyCell b r c f) = countB p b := by
  by_cases hr : r < b.length
  · by_cases hc : c < (b.getD r []).length
    · have := countB_modifyCell b r c f p hr hc
      rw [hpres] at this
      omega
    · unfold modifyCell
      rw [List.set_eq_of_length_le (le_of_not_lt hc)]
      unfold countB
      rw [List.map_set]
      have h1 := sum_set_int (b.map (fun row => row.countP p)) r
        ((b.getD r []).countP p) (by simpa using hr)
      have hrm : r < (b.map (fun row => row.countP p)).length := by simpa using hr
      have h2 : (b.map (fun row => row.countP p))[r] = b[r].countP p :=
        List.getElem_map _
      have h3 : b.getD r [] = b[r] := List.getD_eq_getElem b [] hr
      have h4 : (b.map (fun row => row.countP p))[r] = (b.getD r []).countP p := by
        rw [h2, h3]
      rw [h4] at h1
      omega
  · unfold modifyCell
    rw [List.set_eq_of_length_le (le_of_not_lt hr)]

/-- C9 counterexample: after endGame('won'), a startGame() call sets the
status back to 'playing' (its guard only skips the assignment when the
status is already 'playing'), so the finished status is not preserved. -/
theorem startGame_on_finished_changes_status :
    (((initialSession.newGame ⟨"", 2, 2, 1⟩).endGame .won).startGame).gameState.status
        = .playing
      ∧ GameStatus.playing ≠ GameStatus.won := by
  exact ⟨rfl, by decide⟩

/-- Folding a status-preserving step over a list preserves the status. -/
theorem status_foldl_pres {α : Type} (g : Session → α → Session)
    (hg : ∀ acc a, (g acc a).gameState.status = acc.gameState.status) :
    ∀ (l : List α) (acc : Session),
      (l.foldl g acc).gameState.status = acc.gameState.status := by
  intro l
  induction l with
  | nil => exact fun acc => rfl
  | cons a l ihl =>
    intro acc
    rw [List.foldl_cons, ihl, hg]

/-- The session revealCell never writes the status field. -/
theorem status_sessionRevealFuel (f : Nat) :
    ∀ (s : Session) (row col : Int),
    (Session.revealCellFuel f s row col).gameState.status = s.gameState.status := by
  induction f with
  | zero =>
    intro s row col
    rfl
  | succ f ih =>
    intro s row col
    unfold Session.revealCellFuel
    dsimp only
    split
    · split
      · rfl
      · split
        · refine (status_foldl_pres _ ?_ neighborOffsets _).trans rfl
          intro acc d
          dsimp only
          split
          · split
            · exact ih _ _ _
            · rfl
          · rfl
        · rfl
    · rfl

/-- C9 amended: a won/lost status is preserved by revealCell, flagCell
and updateTimer (none of them writes the status); startGame however
resets any non-playing status — including won/lost — to 'playing', and a
second endGame call can overwrite the result. -/
theorem finished_status_preserved (s : Session) (row col : Int)
    (_h : s.gameState.status = .won ∨ s.gameState.status = .lost) :
    (s.revealCellOp row col).gameState.status = s.gameState.status ∧
    (s.flagCell row col).gameState.status = s.gameState.status ∧
    s.updateTimer.gameState.status = s.gameState.status := by
  clear _h
  refine ⟨status_sessionRevealFuel _ s row col, ?_, rfl⟩
  unfold Session.flagCell
  dsimp only
  split
  · split
    · rfl
    · rfl
  · rfl

/-- C9 witness: on a concrete finished session the three operations leave
the status at 'won'. -/
theorem finished_status_preserved_witness :
    ((((initialSession.newGame ⟨"", 2, 2, 1⟩).endGame .won).revealCellOp 0 0).gameState.status
        = ((initialSession.newGame ⟨"", 2, 2, 1⟩).endGame .won).gameState.status)
      ∧ ((((initialSession.newGame ⟨"", 2, 2, 1⟩).endGame .won).flagCell 0 0).gameState.status
        = ((initialSession.newGame ⟨"", 2, 2, 1⟩).endGame .won).gameState.status) :=
  ⟨(finished_status_preserved ((initialSession.newGame ⟨"", 2, 2, 1⟩).endGame .won) 0 0
      (Or.inl (by decide))).1,
    (finished_status_preserved ((initialSession.newGame ⟨"", 2, 2, 1⟩).endGame .won) 0 0
      (Or.inl (by decide))).2.1⟩

theorem countFlags_createBoard (R C : Nat) :
    countB (fun x => x.isFlagged) (createBoard R C) = 0 := by
  unfold countB
  apply List.sum_eq_zero
  intro x hx
  obtain ⟨row, hrow, rfl⟩ := List.mem_map.1 hx
  unfold createBoard at hrow
  obtain ⟨r, _, rfl⟩ := List.mem_map.1 hrow
  rw [List.countP_eq_length_filter, List.length_eq_zero, List.filter_eq_nil_iff]
  intro cell hcell
  obtain ⟨c, _, rfl⟩ := List.mem_map.1 hcell
  simp

/-- The C10 invariant: the flags counter equals the number of flagged
cells, and the board has exactly the dimensions of the stored difficulty
(so every isValidCell-approved access hits a real cell). -/
def SInv (s : Session) : Prop :=
  s.gameState.flags = (countB (fun x => x.isFlagged) s.gameState.board : Int) ∧
  ∃ d, s.difficulty = some d ∧ s.gameState.board.length = d.rows ∧
    ∀ row ∈ s.gameState.board, row.length = d.cols

theorem SInv_newGame (s : Session) (d : Difficulty) : SInv (s.newGame d) := by
  refine ⟨?_, d, rfl, length_gridBoard _ _ _, rows_createBoard_len _ _⟩
  show (0 : Int) = (countB (fun x => x.isFlagged) (createBoard d.rows d.cols) : Int)
  rw [countFlags_createBoard]
  rfl

theorem SInv_setRevealed (s : Session) (r c : Nat) (h : SInv s) :
    SInv { s with gameState :=
      { s.gameState with board := setRevealed s.gameState.board r c } } := by
  obtain ⟨hf, d, hd, hlen, hrows⟩ := h
  refine ⟨?_, d, hd, ?_, ?_⟩
  · show s.gameState.flags =
      (countB (fun x => x.isFlagged) (setRevealed s.gameState.board r c) : Int)
    unfold setRevealed
    rw [countB_modifyCell_of_pres s.gameState.board r c
      (fun x => { x with isRevealed := true }) (fun x => x.isFlagged) (fun x => rfl)]
    exact hf
  · show (setRevealed s.gameState.board r c).length = d.rows
    unfold setRevealed
    rw [length_modifyCell, hlen]
  · show ∀ row ∈ setRevealed s.gameState.board r c, row.length = d.cols
    exact rows_len_of_sameShape d.cols (sameShape_modifyCell _ _ _ _) hrows

theorem SInv_foldl_pres {α : Type} (g : Session → α → Session)
    (hg : ∀ acc a, SInv acc → SInv (g acc a)) :
    ∀ (l : List α) (acc : Session), SInv acc → SInv (l.foldl g acc) := by
  intro l
  induction l with
  | nil => exact fun acc h => h
  | cons a l ihl =>
    intro acc hacc
    rw [List.foldl_cons]
    exact ihl _ (hg acc a hacc)

theorem SInv_sessionRevealFuel (f : Nat) :
    ∀ (s : Session) (row col : Int), SInv s →
    SInv (Session.revealCellFuel f s row col) := by
  induction f with
  | zero =>
    intro s row col h
    exact h
  | succ f ih =>
    intro s row col h
    unfold Session.revealCellFuel
    dsimp only
    split
    · split
      · exact h
      · split
        · refine SInv_foldl_pres _ ?_ neighborOffsets _ (SInv_setRevealed s _ _ h)
          intro acc d hacc
          dsimp only
          split
          · split
            · exact ih _ _ _ hacc
            · exact hacc
          · exact hacc
        · exact SInv_setRevealed s _ _ h
    · exact h

theorem SInv_flagCell (s : Session) (row col : Int) (h : SInv s) :
    SInv (s.flagCell row col) := by
  obtain ⟨hf, d, hd, hlen, hrows⟩ := h
  unfold Session.flagCell
  dsimp only
  split
  · next hv =>
    split
    · exact ⟨hf, d, hd, hlen, hrows⟩
    · have hvd := hv
      unfold Session.isValidCell at hvd
      rw [hd] at hvd
      rw [decide_eq_true_iff] at hvd
      obtain ⟨hb1, hb2, hb3, hb4⟩ := hvd
      have hr : row.toNat < s.gameState.board.length := by omega
      have hc : col.toNat < (s.gameState.board.getD row.toNat []).length := by
        rw [hrows _ (getD_mem _ _ hr)]
        omega
      refine ⟨?_, d, hd, ?_, ?_⟩
      · show s.gameState.flags +
            (if (!(getCellD s.gameState.board row.toNat col.toNat).isFlagged) = true
              then 1 else -1)
          = (countB (fun x => x.isFlagged)
              (toggleFlag s.gameState.board row.toNat col.toNat) : Int)
        have hcnt := countB_modifyCell s.gameState.board row.toNat col.toNat
          (fun x => { x with isFlagged := !x.isFlagged }) (fun x => x.isFlagged) hr hc
        unfold toggleFlag
        rcases hold : (getCellD s.gameState.board row.toNat col.toNat).isFlagged
        · simp only [hold] at hcnt ⊢
          norm_num at hcnt ⊢
          omega
        · simp only [hold] at hcnt ⊢
          norm_num at hcnt ⊢
          omega
      · show (toggleFlag s.gameState.board row.toNat col.toNat).length = d.rows
        unfold toggleFlag
        rw [length_modifyCell, hlen]
      · show ∀ q ∈ toggleFlag s.gameState.board row.toNat col.toNat,
            q.length = d.cols
        exact rows_len_of_sameShape d.cols (sameShape_modifyCell _ _ _ _) hrows
  · exact ⟨hf, d, hd, hlen, hrows⟩

theorem SInv_applyOp (s : Session) (op : SessionOp) (h : SInv s) :
    SInv (applyOp s op) := by
  cases op with
  | newGame d => exact SInv_newGame s d
  | startGame =>
    show SInv s.startGame
    unfold Session.startGame
    split
    · exact ⟨h.1, h.2⟩
    · exact h
  | endGame r =>
    show SInv (s.endGame r)
    exact ⟨h.1, h.2⟩
  | updateTimer =>
    show SInv s.updateTimer
    exact ⟨h.1, h.2⟩
  | revealCell row col => exact SInv_sessionRevealFuel _ s row col h
  | flagCell row col => exact SInv_flagCell s row col h

theorem SInv_applyOps (ops : List SessionOp) :
    ∀ s : Session, SInv s → SInv (applyOps s ops) := by
  induction ops with
  | nil => exact fun s h => h
  | cons op ops ih =>
    intro s h
    unfold applyOps
    rw [List.foldl_cons]
    exact ih _ (SInv_applyOp s op h)

/-- C10: in every session state reachable from newGame by any sequence of
session operations, the flags counter equals the number of flagged cells
on the board. -/
theorem session_flags_eq_flag_count (d : Difficulty) (ops : List SessionOp) :
    (applyOps (initialSession.newGame d) ops).gameState.flags
      = (countB (fun x => x.isFlagged)
          (applyOps (initialSession.newGame d) ops).gameState.board : Int) :=
  (SInv_applyOps ops _ (SInv_newGame initialSession d)).1

end Saolei
